import Mathlib

/-!
Verification of the matching/classification core of `retro-builder/muos-build.py`
(`MuOSOrganizer`): name normalization, system detection from paths, candidate
lookup, tiered match scoring and the ROM-finding engine.

Strings are modelled as Lean strings over their character lists.  Python regular
expression semantics for the bracket-stripping patterns (non-greedy, with `.`
not matching a newline) are embedded directly.  Scores, which Python computes as
floats from small integer ratios, are modelled as exact rationals built with
`mkRat`; every comparison the code performs (`> best`, `>= 1.0`, `>= 0.5`) is
exact at these values.
-/

/-- Whitespace for Python `str.split()` / `str.strip()` (ASCII fragment). -/
def isWs (c : Char) : Bool :=
  c == ' ' || c == '\t' || c == '\n' || c == '\r' || c == '\x0b' || c == '\x0c'

/-- Index of the first occurrence of `cl` in the list that is not preceded by a
newline, mirroring how the non-greedy pattern `\[.*?\]` scans: `.` does not
match `'\n'`, so a close bracket only matches if no newline comes first. -/
def findClose (cl : Char) : List Char → Option Nat
  | [] => none
  | c :: rest =>
    if c = cl then some 0
    else if c = '\n' then none
    else (findClose cl rest).map (· + 1)

/-- Worker for `stripTags`.  In state `n + 1` the character is inside a matched
bracket group and is dropped; in state `0` the list is scanned for an opening
bracket `o` whose matching `cl` (per `findClose`) exists. -/
def stripAux (o cl : Char) : List Char → Nat → List Char
  | [], _ => []
  | _ :: rest, n + 1 => stripAux o cl rest n
  | c :: rest, 0 =>
    if c = o then
      match findClose cl rest with
      | some k => stripAux o cl rest (k + 1)
      | none => c :: stripAux o cl rest 0
    else c :: stripAux o cl rest 0

/-- `re.sub(r'\[.*?\]', '', s)` for the bracket pair `o`, `cl`. -/
def stripTags (o cl : Char) (l : List Char) : List Char :=
  stripAux o cl l 0

/-- The character-wise effect of the chained `str.replace` calls in
`normalize_name`: drop `:`, `'`, `!`, `.`, `,`; map `-` and `_` to a space;
map `&` to the letters of `and`. -/
def charRepl (c : Char) : List Char :=
  if c = ':' then []
  else if c = '-' then [' ']
  else if c = '_' then [' ']
  else if c = '\'' then []
  else if c = '&' then ['a', 'n', 'd']
  else if c = '!' then []
  else if c = '.' then []
  else if c = ',' then []
  else [c]

/-- Python `str.split()` with no argument: split on whitespace runs, no empty
words. -/
def splitWs : List Char → List (List Char)
  | [] => []
  | c :: rest =>
    if isWs c then splitWs rest
    else
      match rest with
      | [] => [[c]]
      | d :: _ =>
        if isWs d then [c] :: splitWs rest
        else
          match splitWs rest with
          | [] => [[c]]
          | w :: ws => (c :: w) :: ws

/-- Python `sep.join` for a one-character separator. -/
def joinSep (s : Char) : List (List Char) → List Char
  | [] => []
  | [w] => w
  | w :: ws => w ++ s :: joinSep s ws

/-- Python `str.strip()` (whitespace from both ends). -/
def pyStrip (l : List Char) : List Char :=
  ((l.dropWhile isWs).reverse.dropWhile isWs).reverse

/-- The stop words removed by `normalize_name`. -/
def stopWords : List (List Char) :=
  ["the", "a", "an", "of", "in", "on", "at", "to", "for"].map String.data

/-- `MuOSOrganizer.normalize_name` on character lists: strip `[...]`, `(...)`,
and brace-delimited tags non-greedily, apply the character replacements,
lower-case, split into words, drop stop words, re-join with single spaces and
strip. -/
def normChars (l : List Char) : List Char :=
  let l1 := stripTags '[' ']' l
  let l2 := stripTags '(' ')' l1
  let l3 := stripTags '\x7b' '\x7d' l2
  let l4 := l3.flatMap charRepl
  let l5 := l4.map Char.toLower
  let ws := splitWs l5
  let ws2 := ws.filter (fun w => !decide (w ∈ stopWords))
  pyStrip (joinSep ' ' ws2)

/-- `MuOSOrganizer.normalize_name`. -/
def normalizeName (s : String) : String :=
  ⟨normChars s.data⟩

/-- The word list produced inside `normChars` just before the final join and
strip: the filtered whitespace-split of the replaced, lower-cased,
bracket-stripped input. -/
def normStage (l : List Char) : List (List Char) :=
  (splitWs (((stripTags '\x7b' '\x7d' (stripTags '(' ')'
    (stripTags '[' ']' l))).flatMap charRepl).map Char.toLower)).filter
    (fun w => !decide (w ∈ stopWords))

/-- A filesystem path as `pathlib.Path` exposes it to this code: the list of
path components (`Path.parts`). -/
structure RomPath where
  parts : List String
deriving DecidableEq

/-- The final path component (`Path.name`). -/
def pathNameChars (p : RomPath) : List Char :=
  ((p.parts.getLast?).getD "").data

/-- Index of the last `'.'` in a file name, if any. -/
def lastDotIdx (l : List Char) : Option Nat :=
  ((List.range l.length).filter (fun i => l.getD i ' ' == '.')).getLast?

/-- `Path.suffix`: the extension including the dot, empty when the last dot is
leading or trailing (pathlib's rule `0 < i < len(name) - 1`). -/
def suffixChars (l : List Char) : List Char :=
  match lastDotIdx l with
  | some i => if 0 < i ∧ i + 1 < l.length then l.drop i else []
  | none => []

/-- `Path.stem`: the final component without its suffix. -/
def stemChars (l : List Char) : List Char :=
  match lastDotIdx l with
  | some i => if 0 < i ∧ i + 1 < l.length then l.take i else l
  | none => l

/-- `rom_path.stem` as a string. -/
def stemStr (p : RomPath) : String :=
  ⟨stemChars (pathNameChars p)⟩

/-- `rom_path.suffix.lower()`. -/
def extStr (p : RomPath) : String :=
  ⟨(suffixChars (pathNameChars p)).map Char.toLower⟩

/-- `[p.upper() for p in rom_path.parts]`. -/
def upperParts (p : RomPath) : List String :=
  p.parts.map (fun s => ⟨s.data.map Char.toUpper⟩)

/-- `str(rom_path).upper()` as a character list: components joined by `/`,
upper-cased. -/
def pathStrU (p : RomPath) : List Char :=
  (joinSep '/' (p.parts.map String.data)).map Char.toUpper

/-- `MuOSOrganizer.detect_system_from_path`: folder-name aliases checked in
source order on the upper-cased path components, then the extension fallback,
else `UNKNOWN`. -/
def detectSystemFromPath (p : RomPath) : String :=
  let pp := upperParts p
  if "ARCADE" ∈ pp then "ARCADE"
  else if "N64" ∈ pp ∨ "NINTENDO64" ∈ pp then "N64"
  else if "PS" ∈ pp ∨ "PS1" ∈ pp ∨ "PSX" ∈ pp ∨ "PLAYSTATION" ∈ pp then "PS"
  else if "DC" ∈ pp ∨ "DREAMCAST" ∈ pp then "DC"
  else if "GBA" ∈ pp then "GBA"
  else if "GBC" ∈ pp then "GBC"
  else if "GB" ∈ pp ∧ "GBA" ∉ pp ∧ "GBC" ∉ pp then "GB"
  else if "FC" ∈ pp ∨ "NES" ∈ pp then "FC"
  else if "SFC" ∈ pp ∨ "SNES" ∈ pp then "SFC"
  else if "MD" ∈ pp ∨ "GENESIS" ∈ pp ∨ "MEGADRIVE" ∈ pp then "MD"
  else if "NEOGEO" ∈ pp then "NEOGEO"
  else if "ATARI" ∈ pp then "ATARI"
  else if "PCE" ∈ pp ∨ "PCENGINE" ∈ pp ∨ "TURBOGRAFX" ∈ pp then "PCE"
  else if "MS" ∈ pp then "MS"
  else if "GG" ∈ pp then "GG"
  else
    let e := extStr p
    if e ∈ [".n64", ".z64", ".v64"] then "N64"
    else if e = ".nes" then "FC"
    else if e ∈ [".sfc", ".smc"] then "SFC"
    else if e = ".gb" then "GB"
    else if e = ".gbc" then "GBC"
    else if e = ".gba" then "GBA"
    else if e ∈ [".md", ".smd", ".gen"] then "MD"
    else if e ∈ [".sms"] then "MS"
    else if e = ".gg" then "GG"
    else if e = ".pce" then "PCE"
    else if e ∈ [".chd", ".iso", ".cue", ".bin"] ∧ ['/', 'P', 'S', '/'] <:+: pathStrU p
      then "PS"
    else "UNKNOWN"

/-- The folder-alias stage of `detect_system_from_path` on its own: the same
branches in the same order over the upper-cased components, `none` when no
folder alias matches.  Used to state that a folder-segment match decides the
classification before the extension fallback is consulted. -/
def folderTag (pp : List String) : Option String :=
  if "ARCADE" ∈ pp then some "ARCADE"
  else if "N64" ∈ pp ∨ "NINTENDO64" ∈ pp then some "N64"
  else if "PS" ∈ pp ∨ "PS1" ∈ pp ∨ "PSX" ∈ pp ∨ "PLAYSTATION" ∈ pp then some "PS"
  else if "DC" ∈ pp ∨ "DREAMCAST" ∈ pp then some "DC"
  else if "GBA" ∈ pp then some "GBA"
  else if "GBC" ∈ pp then some "GBC"
  else if "GB" ∈ pp ∧ "GBA" ∉ pp ∧ "GBC" ∉ pp then some "GB"
  else if "FC" ∈ pp ∨ "NES" ∈ pp then some "FC"
  else if "SFC" ∈ pp ∨ "SNES" ∈ pp then some "SFC"
  else if "MD" ∈ pp ∨ "GENESIS" ∈ pp ∨ "MEGADRIVE" ∈ pp then some "MD"
  else if "NEOGEO" ∈ pp then some "NEOGEO"
  else if "ATARI" ∈ pp then some "ATARI"
  else if "PCE" ∈ pp ∨ "PCENGINE" ∈ pp ∨ "TURBOGRAFX" ∈ pp then some "PCE"
  else if "MS" ∈ pp then some "MS"
  else if "GG" ∈ pp then some "GG"
  else none

/-- Every folder-name alias appearing in the folder stage of
`detect_system_from_path`. -/
def folderAliasTokens : List String :=
  ["ARCADE", "N64", "NINTENDO64", "PS", "PS1", "PSX", "PLAYSTATION", "DC",
   "DREAMCAST", "GBA", "GBC", "GB", "FC", "NES", "SFC", "SNES", "MD",
   "GENESIS", "MEGADRIVE", "NEOGEO", "ATARI", "PCE", "PCENGINE", "TURBOGRAFX",
   "MS", "GG"]

/-- The module-level `SYSTEM_TO_MUOS_FOLDER` dictionary. -/
def SYSTEM_TO_MUOS_FOLDER : List (String × String) :=
  [("Nintendo 64", "N64"), ("N64", "N64"),
   ("PlayStation", "PS"), ("PS1", "PS"), ("PSX", "PS"),
   ("Dreamcast", "DC"),
   ("Arcade", "ARCADE"), ("MAME", "ARCADE"), ("FBA", "ARCADE"),
   ("Game Boy", "GB"), ("Game Boy Color", "GBC"), ("Game Boy Advance", "GBA"),
   ("GBA", "GBA"),
   ("NES", "FC"), ("Nintendo Entertainment System", "FC"),
   ("SNES", "SFC"), ("Super Nintendo", "SFC"),
   ("Genesis", "MD"), ("Mega Drive", "MD"), ("Sega Genesis", "MD"),
   ("Neo Geo", "NEOGEO"),
   ("Atari 2600", "ATARI"),
   ("TurboGrafx-16", "PCE"), ("PC Engine", "PCE"),
   ("Master System", "MS"), ("Sega Master System", "MS"),
   ("Game Gear", "GG"),
   ("Neo Geo Pocket", "NGP"), ("WonderSwan", "WS"),
   ("PlayStation Portable", "PSP")]

/-- `SYSTEM_TO_MUOS_FOLDER.get(system, system)`. -/
def muosFolder (system : String) : String :=
  match SYSTEM_TO_MUOS_FOLDER.find? (fun kv => kv.1 == system) with
  | some kv => kv.2
  | none => system

/-- `available_roms.get(key, [])` over the index modelled as an association
list. -/
def lookupSys (idx : List (String × List RomPath)) (key : String) : List RomPath :=
  match idx.find? (fun kv => kv.1 == key) with
  | some kv => kv.2
  | none => []

/-- The strict-system candidate selection of `find_rom_for_game`: the
hard-coded chain of system-name families, falling back to the mapped muOS
folder name. -/
def candidatesFor (system : String) (idx : List (String × List RomPath)) :
    List RomPath :=
  if system ∈ ["Nintendo 64", "N64"] then lookupSys idx "N64"
  else if system ∈ ["PlayStation", "PS1", "PSX"] then lookupSys idx "PS"
  else if system ∈ ["Arcade", "ARCADE", "MAME"] then lookupSys idx "ARCADE"
  else if system ∈ ["Neo Geo", "NEOGEO"] then lookupSys idx "NEOGEO"
  else if system ∈ ["Genesis", "Mega Drive", "Sega Genesis"] then lookupSys idx "MD"
  else if system ∈ ["NES", "Nintendo Entertainment System"] then lookupSys idx "FC"
  else if system ∈ ["SNES", "Super Nintendo"] then lookupSys idx "SFC"
  else if system ∈ ["Game Boy", "GB"] then lookupSys idx "GB"
  else if system ∈ ["Game Boy Color", "GBC"] then lookupSys idx "GBC"
  else if system ∈ ["Game Boy Advance", "GBA"] then lookupSys idx "GBA"
  else lookupSys idx (muosFolder system)

/-- Python `s.split('/')` (keeps empty pieces). -/
def splitOnChar (sep : Char) : List Char → List (List Char)
  | [] => [[]]
  | c :: rest =>
    match splitOnChar sep rest with
    | [] => []
    | w :: ws => if c = sep then [] :: w :: ws else (c :: w) :: ws

/-- Python `s.rsplit(' ', 1)` restricted to the use in `find_rom_for_game`:
split at the last space.  (The caller only uses it when a space is present.) -/
def rsplitSpace : List Char → List Char × List Char
  | [] => ([], [])
  | c :: rest =>
    if ' ' ∈ rest then
      ((rsplitSpace rest).1.cons c, (rsplitSpace rest).2)
    else if c = ' ' then ([], rest)
    else ([], c :: rest)

/-- The variant generation of `find_rom_for_game`: when the name contains a
slash, split at the last space; when the piece after it contains a slash,
recombine the prefix with each `/`-separated alternative; the original name is
appended unconditionally. -/
def gameVariantsChars (l : List Char) : List (List Char) :=
  let pre : List (List Char) :=
    if '/' ∈ l then
      let bv := if ' ' ∈ l then rsplitSpace l else ([], l)
      if '/' ∈ bv.2 then
        (splitOnChar '/' bv.2).map
          (fun v => if bv.1 ≠ [] then bv.1 ++ ' ' :: v else v)
      else []
    else []
  pre ++ [l]

/-- Variant generation on strings. -/
def gameVariants (s : String) : List String :=
  (gameVariantsChars s.data).map (fun l => ⟨l⟩)

/-- Python `a in b` on strings: contiguous substring. -/
def pyIn (a b : String) : Bool :=
  decide (a.data <:+: b.data)

/-- `set(s.split())`: the distinct words of a string. -/
def wordSet (s : String) : List (List Char) :=
  (splitWs s.data).dedup

/-- The tiered match score of `find_rom_for_game` for one (normalized query,
normalized candidate) pair: exact equality `1`, query-in-candidate `0.8`,
candidate-in-query `0.7`, else word-overlap `|common| / max(|gw|, |rw|)`
when both word sets are non-empty and the intersection is non-empty, else `0`. -/
def matchScore (g r : String) : ℚ :=
  if g = r then 1
  else if pyIn g r then mkRat 4 5
  else if pyIn r g then mkRat 7 10
  else
    let gw := wordSet g
    let rw := wordSet r
    if gw ≠ [] ∧ rw ≠ [] then
      let cw := gw.filter (fun w => decide (w ∈ rw))
      if cw ≠ [] then mkRat cw.length (max gw.length rw.length) else 0
    else 0

/-- The per-candidate eligibility check of `find_rom_for_game` (line 937): a
candidate is skipped unless its detected system is the target muOS folder or
`UNKNOWN`. -/
def eligibleFor (muos : String) (r : RomPath) : Bool :=
  detectSystemFromPath r == muos || detectSystemFromPath r == "UNKNOWN"

/-- The inner candidate loop of `find_rom_for_game` for one variant:
skip candidates from a different system, score the rest, track the best
strictly-improving candidate, and return early (`.error`) with the current
best when a score reaches `1.0`. -/
def runCands (muos g : String) :
    List RomPath → Option RomPath → ℚ → Except (Option RomPath) (Option RomPath × ℚ)
  | [], best, bs => .ok (best, bs)
  | rom :: rest, best, bs =>
    let det := detectSystemFromPath rom
    if det ≠ muos ∧ det ≠ "UNKNOWN" then runCands muos g rest best bs
    else
      let sc := matchScore g (normalizeName (stemStr rom))
      let best' := if bs < sc then some rom else best
      let bs' := if bs < sc then sc else bs
      if 1 ≤ sc then .error best'
      else runCands muos g rest best' bs'

/-- The variant loop of `find_rom_for_game`. -/
def runVariants (muos : String) (cands : List RomPath) :
    List String → Option RomPath → ℚ → Except (Option RomPath) (Option RomPath × ℚ)
  | [], best, bs => .ok (best, bs)
  | v :: vs, best, bs =>
    match runCands muos (normalizeName v) cands best bs with
    | .error r => .error r
    | .ok (b, s) => runVariants muos cands vs b s

/-- `MuOSOrganizer.find_rom_for_game`: map the system to its muOS folder,
build the variants, select the candidate pool, loop, and accept the best
match only when one exists and its score is at least `0.5`. -/
def findRomForGame (gameName system : String)
    (idx : List (String × List RomPath)) : Option RomPath :=
  let muos := muosFolder system
  let variants := gameVariants gameName
  let cands := candidatesFor system idx
  if cands = [] then none
  else
    match runVariants muos cands variants none 0 with
    | .error r => r
    | .ok (best, bs) => if best.isSome ∧ mkRat 1 2 ≤ bs then best else none

/-- The eligible candidate pool of an entry: the selected candidates that pass
the per-candidate system check. -/
def eligCands (system : String) (idx : List (String × List RomPath)) :
    List RomPath :=
  (candidatesFor system idx).filter (eligibleFor (muosFolder system))

/-- The best score over all (variant, eligible candidate) pairs, as the spec
describes it. -/
def specBestScore (gameName system : String)
    (idx : List (String × List RomPath)) : ℚ :=
  ((gameVariants gameName).flatMap
    (fun v => (eligCands system idx).map
      (fun r => matchScore (normalizeName v) (normalizeName (stemStr r))))).foldr max 0

/-- Division as Python performs it inside the word-overlap branch, with its
only failure mode (`ZeroDivisionError`) made explicit. -/
def divQE (a : Int) (b : Nat) : Except String ℚ :=
  if b = 0 then .error "ZeroDivisionError" else .ok (mkRat a b)

/-- `matchScore` with the fallible division explicit: the only operation in
classification or scoring that could raise in Python. -/
def matchScoreE (g r : String) : Except String ℚ :=
  if g = r then .ok 1
  else if pyIn g r then .ok (mkRat 4 5)
  else if pyIn r g then .ok (mkRat 7 10)
  else
    let gw := wordSet g
    let rw := wordSet r
    if gw ≠ [] ∧ rw ≠ [] then
      let cw := gw.filter (fun w => decide (w ∈ rw))
      if cw ≠ [] then divQE cw.length (max gw.length rw.length) else .ok 0
    else .ok 0

/-- The per-entry loop of `MuOSOrganizer.organize`
(`for game in games_list: self.process_game(...)`) under Python exception
semantics: the body is a step that may raise (`.error`); the loop has no
handler, so an error propagates and the remaining entries are not processed.
Returns the list of entries actually processed. -/
def organizeSteps (step : String → Except String Unit) :
    List String → Except String (List String)
  | [] => .ok []
  | g :: rest =>
    match step g with
    | .error e => .error e
    | .ok _ =>
      match organizeSteps step rest with
      | .error e => .error e
      | .ok done => .ok (g :: done)

/-- Every path held by an optional best-match value passes the per-candidate
system check. -/
def EligOpt (muos : String) (o : Option RomPath) : Prop :=
  ∀ x, o = some x → eligibleFor muos x = true

/-- A step function for the organize loop that raises on one entry; used to
exhibit that the loop has no per-entry handler. -/
def failingStep (g : String) : Except String Unit :=
  if g = "bad" then .error "boom" else .ok ()

/-- A candidate file whose path matches no folder alias and no known extension:
`detect_system_from_path` classifies it `UNKNOWN`, so a scan indexes it under
the `UNKNOWN` key. -/
def unknownFile : RomPath := ⟨["Tetris.xyz"]⟩

/-- A Game Boy candidate file. -/
def tetrisPath : RomPath := ⟨["GB", "Tetris (World).gb"]⟩

/-- A one-system index holding `tetrisPath` under `GB`. -/
def idxGB : List (String × List RomPath) := [("GB", [tetrisPath])]

/-- A Game Boy candidate with a non-empty normalized stem. -/
def marioPath : RomPath := ⟨["GB", "Mario.gb"]⟩

/-- A Game Boy candidate whose stem normalizes to the empty string. -/
def emptyStemPath : RomPath := ⟨["GB", "(USA).gb"]⟩

/-- An index where a candidate with an empty normalized stem follows one with
a non-empty stem. -/
def idxEmptyStem : List (String × List RomPath) := [("GB", [marioPath, emptyStemPath])]

-- Sanity checks of the embedding on concrete inputs (spec example scenarios).
example : normalizeName "Super Mario Bros. 3 (USA) [!]" = "super mario bros 3" := by decide
example : normalizeName "Chrono Trigger" = normalizeName "Chrono Trigger (USA)" := by decide
example : gameVariants "Pokemon Blue/Red" =
    ["Pokemon Blue", "Pokemon Red", "Pokemon Blue/Red"] := by decide
example : detectSystemFromPath ⟨["roms", "GB", "Tetris.zip"]⟩ = "GB" := by decide
example : detectSystemFromPath ⟨["stuff", "game.sfc"]⟩ = "SFC" := by decide
example : matchScore "mario luigi" "mario peach" = mkRat 1 2 := by decide
example : findRomForGame "Tetris" "Game Boy"
    [("GB", [⟨["GB", "Tetris (World).gb"]⟩])] = some ⟨["GB", "Tetris (World).gb"]⟩ := by decide

/-! ### Basic facts about scores -/

theorem mkRat_nat_nonneg (a b : Nat) : 0 ≤ mkRat (a : Int) b := by
  rw [Rat.mkRat_eq_div]
  apply div_nonneg <;> positivity

theorem mkRat_nat_le_one (a b : Nat) (h : a ≤ b) (hb : 0 < b) :
    mkRat (a : Int) b ≤ 1 := by
  rw [Rat.mkRat_eq_div, div_le_one (by exact_mod_cast hb)]
  exact_mod_cast h

theorem matchScore_nonneg (g r : String) : 0 ≤ matchScore g r := by
  simp only [matchScore]
  split_ifs
  · norm_num
  · rw [Rat.mkRat_eq_div]; norm_num
  · rw [Rat.mkRat_eq_div]; norm_num
  · exact mkRat_nat_nonneg _ _
  · norm_num
  · norm_num

theorem matchScore_le_one (g r : String) : matchScore g r ≤ 1 := by
  simp only [matchScore]
  split_ifs with h1 h2 h3 h4 h5
  · norm_num
  · rw [Rat.mkRat_eq_div]; norm_num
  · rw [Rat.mkRat_eq_div]; norm_num
  · apply mkRat_nat_le_one
    · exact le_trans (List.length_filter_le _ _) (le_max_left _ _)
    · exact lt_of_lt_of_le (List.length_pos.mpr h4.1) (le_max_left _ _)
  · norm_num
  · norm_num

/-- C6: the tiered scorer stays in `[0,1]`; exact equality scores `1`, the
query-in-candidate tier scores `0.8`, the candidate-in-query tier scores
`0.7`, the word-overlap fallback is `|common| / max(|gw|, |rw|)` and is `0`
whenever either word set is empty. -/
theorem claim6_score_bounds (g r : String) :
    0 ≤ matchScore g r ∧ matchScore g r ≤ 1 ∧
    (g = r → matchScore g r = 1) ∧
    (g ≠ r → pyIn g r = true → matchScore g r = mkRat 4 5) ∧
    (g ≠ r → pyIn g r = false → pyIn r g = true → matchScore g r = mkRat 7 10) ∧
    (g ≠ r → pyIn g r = false → pyIn r g = false →
      (wordSet g = [] ∨ wordSet r = []) → matchScore g r = 0) ∧
    (g ≠ r → pyIn g r = false → pyIn r g = false →
      wordSet g ≠ [] → wordSet r ≠ [] →
      matchScore g r =
        mkRat ((wordSet g).filter (fun w => decide (w ∈ wordSet r))).length
          (max (wordSet g).length (wordSet r).length)) := by
  refine ⟨matchScore_nonneg g r, matchScore_le_one g r, ?_, ?_, ?_, ?_, ?_⟩
  · intro h; simp [matchScore, h]
  · intro h1 h2; simp [matchScore, h1, h2]
  · intro h1 h2 h3; simp [matchScore, h1, h2, h3]
  · intro h1 h2 h3 h4
    rcases h4 with h4 | h4 <;> simp [matchScore, h1, h2, h3, h4]
  · intro h1 h2 h3 h4 h5
    simp only [matchScore]
    rw [if_neg h1, if_neg (by simp [h2]), if_neg (by simp [h3]),
      if_pos (And.intro h4 h5)]
    split_ifs with hcw
    · rfl
    · push_neg at hcw
      rw [hcw]
      rw [Rat.mkRat_eq_div]
      simp

theorem claim6_witness :
    matchScore "mario" "mario kart" = mkRat 4 5 ∧ 0 ≤ matchScore "mario" "mario kart" :=
  ⟨(claim6_score_bounds "mario" "mario kart").2.2.2.1 (by decide) (by decide),
   (claim6_score_bounds "mario" "mario kart").1⟩

/-! ### Eligibility: the per-candidate system filter -/

theorem eligibleFor_true_iff {muos : String} {r : RomPath} :
    eligibleFor muos r = true ↔
      (detectSystemFromPath r = muos ∨ detectSystemFromPath r = "UNKNOWN") := by
  simp [eligibleFor]

theorem eligibleFor_false_iff {muos : String} {r : RomPath} :
    eligibleFor muos r = false ↔
      (detectSystemFromPath r ≠ muos ∧ detectSystemFromPath r ≠ "UNKNOWN") := by
  simp [eligibleFor]

theorem runCands_filter (muos g : String) (cands : List RomPath) :
    ∀ (best : Option RomPath) (bs : ℚ),
    runCands muos g cands best bs =
      runCands muos g (cands.filter (eligibleFor muos)) best bs := by
  induction cands with
  | nil => intro best bs; rfl
  | cons rom rest ih =>
    intro best bs
    by_cases h : detectSystemFromPath rom ≠ muos ∧ detectSystemFromPath rom ≠ "UNKNOWN"
    · have hfe : eligibleFor muos rom = false := eligibleFor_false_iff.mpr h
      have hfilter : List.filter (eligibleFor muos) (rom :: rest) =
          List.filter (eligibleFor muos) rest := by
        simp [List.filter_cons, hfe]
      rw [hfilter]
      have hstep : runCands muos g (rom :: rest) best bs = runCands muos g rest best bs := by
        simp only [runCands, if_pos h]
      rw [hstep]
      exact ih best bs
    · have hfe : eligibleFor muos rom = true := by
        rw [eligibleFor_true_iff]
        by_cases hd : detectSystemFromPath rom = muos
        · exact Or.inl hd
        · push_neg at h
          exact Or.inr (h hd)
      have hfilter : List.filter (eligibleFor muos) (rom :: rest) =
          rom :: List.filter (eligibleFor muos) rest := by
        simp [List.filter_cons, hfe]
      rw [hfilter]
      simp only [runCands, if_neg h]
      split_ifs <;> first | rfl | exact ih _ _

theorem runCands_elig (muos g : String) (cands : List RomPath) :
    ∀ (best : Option RomPath) (bs : ℚ), EligOpt muos best →
    (∀ r, runCands muos g cands best bs = .error r → EligOpt muos r) ∧
    (∀ b s, runCands muos g cands best bs = .ok (b, s) → EligOpt muos b) := by
  induction cands with
  | nil =>
    intro best bs hb
    constructor
    · intro r hr; cases hr
    · intro b s hbs
      injection hbs with h
      injection h with h1 _
      rw [← h1]; exact hb
  | cons rom rest ih =>
    intro best bs hb
    by_cases h : detectSystemFromPath rom ≠ muos ∧ detectSystemFromPath rom ≠ "UNKNOWN"
    · simpa only [runCands, if_pos h] using ih best bs hb
    · have helig : eligibleFor muos rom = true := by
        rw [eligibleFor_true_iff]
        by_cases hd : detectSystemFromPath rom = muos
        · exact Or.inl hd
        · push_neg at h
          exact Or.inr (h hd)
      have hb' : EligOpt muos
          (if bs < matchScore g (normalizeName (stemStr rom)) then some rom else best) := by
        split_ifs with hlt
        · intro x hx; injection hx with hx; rw [← hx]; exact helig
        · exact hb
      by_cases hsc : 1 ≤ matchScore g (normalizeName (stemStr rom))
      · have hstep : runCands muos g (rom :: rest) best bs =
            .error (if bs < matchScore g (normalizeName (stemStr rom))
              then some rom else best) := by
          simp only [runCands, if_neg h, if_pos hsc]
        constructor
        · intro r hr
          rw [hstep] at hr
          injection hr with hr
          rw [← hr]; exact hb'
        · intro b s hbs
          rw [hstep] at hbs
          cases hbs
      · have hstep : runCands muos g (rom :: rest) best bs =
            runCands muos g rest
              (if bs < matchScore g (normalizeName (stemStr rom)) then some rom else best)
              (if bs < matchScore g (normalizeName (stemStr rom))
                then matchScore g (normalizeName (stemStr rom)) else bs) := by
          simp only [runCands, if_neg h, if_neg hsc]
        rw [hstep]
        exact ih _ _ hb'

theorem runVariants_elig (muos : String) (cands : List RomPath) (vs : List String) :
    ∀ (best : Option RomPath) (bs : ℚ), EligOpt muos best →
    (∀ r, runVariants muos cands vs best bs = .error r → EligOpt muos r) ∧
    (∀ b s, runVariants muos cands vs best bs = .ok (b, s) → EligOpt muos b) := by
  induction vs with
  | nil =>
    intro best bs hb
    constructor
    · intro r hr; cases hr
    · intro b s hbs
      injection hbs with h
      injection h with h1 _
      rw [← h1]; exact hb
  | cons v vs ih =>
    intro best bs hb
    simp only [runVariants]
    cases hrc : runCands muos (normalizeName v) cands best bs with
    | error r =>
      constructor
      · intro r' hr'
        injection hr' with hr'
        rw [← hr']
        exact (runCands_elig muos (normalizeName v) cands best bs hb).1 r hrc
      · intro b s hbs; cases hbs
    | ok p =>
      obtain ⟨b0, s0⟩ := p
      have hb0 : EligOpt muos b0 :=
        (runCands_elig muos (normalizeName v) cands best bs hb).2 b0 s0 hrc
      exact ih b0 s0 hb0

theorem findRom_some_elig {game system : String}
    {idx : List (String × List RomPath)} {f : RomPath}
    (h : findRomForGame game system idx = some f) :
    eligibleFor (muosFolder system) f = true := by
  unfold findRomForGame at h
  by_cases hc : candidatesFor system idx = []
  · rw [if_pos hc] at h; cases h
  · rw [if_neg hc] at h
    have hnone : EligOpt (muosFolder system) none := by intro x hx; cases hx
    cases hrv : runVariants (muosFolder system) (candidatesFor system idx)
        (gameVariants game) none 0 with
    | error r =>
      rw [hrv] at h
      exact (runVariants_elig _ _ _ none 0 hnone).1 r hrv f h
    | ok p =>
      obtain ⟨b, s⟩ := p
      rw [hrv] at h
      have hbElig : EligOpt (muosFolder system) b :=
        (runVariants_elig _ _ _ none 0 hnone).2 b s hrv
      have h' : (if b.isSome = true ∧ mkRat 1 2 ≤ s then b else none) = some f := h
      split_ifs at h'
      exact hbElig f h'

/-- C1 (counterexample): an `UNKNOWN`-classified file indexed under the
`UNKNOWN` key is not in the candidate pool of a `GB` entry, so it is never
scored even though its normalized title equals the query exactly: the claim
that every `UNKNOWN` file is in the eligible pool of every entry is false. -/
theorem claim1_ce :
    detectSystemFromPath unknownFile = "UNKNOWN" ∧
    normalizeName "Tetris" = normalizeName (stemStr unknownFile) ∧
    findRomForGame "Tetris" "GB" [("UNKNOWN", [unknownFile])] = none := by
  decide

/-- C1 (amended): within the candidate pool selected for the entry, a
candidate takes part in scoring if and only if its detected system is the
entry's muOS folder tag or `UNKNOWN` (dropping the ineligible candidates from
the pool never changes the loop's outcome); every `UNKNOWN`-classified
candidate passes that check for every entry; and any returned file passes it,
so a candidate confidently classified into a different platform is never
returned.  `UNKNOWN` files are only reachable through pools whose index key
selects them, not for every entry. -/
theorem claim1_amended :
    (∀ (muos g : String) (cands : List RomPath) (best : Option RomPath) (bs : ℚ),
      runCands muos g cands best bs =
        runCands muos g (cands.filter (eligibleFor muos)) best bs) ∧
    (∀ (muos : String) (r : RomPath),
      detectSystemFromPath r = "UNKNOWN" → eligibleFor muos r = true) ∧
    (∀ (game system : String) (idx : List (String × List RomPath)) (f : RomPath),
      findRomForGame game system idx = some f →
        eligibleFor (muosFolder system) f = true) := by
  refine ⟨fun muos g cands best bs => runCands_filter muos g cands best bs, ?_, ?_⟩
  · intro muos r h
    exact eligibleFor_true_iff.mpr (Or.inr h)
  · intro game system idx f h
    exact findRom_some_elig h

theorem claim1_witness :
    eligibleFor "GB" unknownFile = true ∧ eligibleFor "GB" tetrisPath = true :=
  ⟨claim1_amended.2.1 "GB" unknownFile (by decide),
   claim1_amended.2.2 "Tetris" "Game Boy" idxGB tetrisPath (by decide)⟩

/-- C2: whatever index `find_rom_for_game` is run over (in particular the one
built by `scan_rom_directories` and `scan_output_directory`), classifying a
returned file's path yields the entry's canonical target tag or `UNKNOWN`,
never a different tag: the per-candidate check at line 937 skips every other
candidate before it can be scored. -/
theorem claim2_platform_exclusive
    (game system : String) (idx : List (String × List RomPath)) (f : RomPath)
    (h : findRomForGame game system idx = some f) :
    detectSystemFromPath f = muosFolder system ∨
      detectSystemFromPath f = "UNKNOWN" :=
  eligibleFor_true_iff.mp (findRom_some_elig h)

theorem claim2_witness :
    detectSystemFromPath tetrisPath = muosFolder "Game Boy" ∨
      detectSystemFromPath tetrisPath = "UNKNOWN" :=
  claim2_platform_exclusive "Tetris" "Game Boy" idxGB tetrisPath (by decide)

/-! ### C3: the per-entry loop of organize and totality of scoring -/

/-- C3 (counterexample): `organize` runs `process_game` for each entry with no
try/except around the call, so a step that raises on one entry aborts the loop
and the remaining entries are never processed (`.error "boom"` propagates and
`"good"` is absent from any processed list), contradicting a catch-and-skip
policy. -/
theorem claim3_ce :
    organizeSteps failingStep ["bad", "good"] = .error "boom" ∧
    organizeSteps failingStep ["good"] = .ok ["good"] :=
  ⟨rfl, rfl⟩

theorem organizeSteps_total (f : String → Except String Unit)
    (hf : ∀ g, f g = .ok ()) :
    ∀ games : List String, organizeSteps f games = .ok games := by
  intro games
  induction games with
  | nil => rfl
  | cons g rest ih => simp [organizeSteps, hf g, ih]

/-- C3 (amended): the loop in `organize` has no per-entry handler, so an
exception in a step would abort the remaining entries; however, classification
and scoring as implemented never raise: the only fallible operation they
perform, the word-overlap division, is guarded by the non-emptiness test on
both word sets, so `matchScoreE` always succeeds with the pure score, and the
batch always processes every entry. -/
theorem claim3_amended :
    (∀ g r, matchScoreE g r = .ok (matchScore g r)) ∧
    (∀ (f : String → Except String Unit), (∀ g, f g = .ok ()) →
      ∀ games : List String, organizeSteps f games = .ok games) := by
  constructor
  · intro g r
    simp only [matchScoreE, matchScore, divQE]
    split_ifs with h1 h2 h3 h4 h5 h6
    · rfl
    · rfl
    · rfl
    · exfalso
      have hg : (wordSet g).length ≠ 0 := by
        simpa [List.length_eq_zero] using h4.1
      omega
    · rfl
    · rfl
    · rfl
  · exact organizeSteps_total

theorem claim3_witness :
    organizeSteps (fun _ => Except.ok ()) ["Chrono Trigger", "Sonic"] =
      .ok ["Chrono Trigger", "Sonic"] :=
  claim3_amended.2 (fun _ => Except.ok ()) (fun _ => rfl) ["Chrono Trigger", "Sonic"]

/-! ### C8: variant generation -/

theorem rsplitSpace_append (b t : List Char) (ht : ' ' ∉ t) :
    rsplitSpace (b ++ ' ' :: t) = (b, t) := by
  induction b with
  | nil =>
    simp only [List.nil_append, rsplitSpace, if_neg ht]
    rfl
  | cons a b ih =>
    have hmem : ' ' ∈ b ++ ' ' :: t := by simp
    simp only [List.cons_append, rsplitSpace, List.append_eq, if_pos hmem, ih]

/-- C8 (counterexample): a name whose slash lies before the last space
generates no recombined variants at all — the list is exactly the original
name — contradicting the claim that every slash-containing name is split into
prefix-plus-alternative variants. -/
theorem claim8_ce :
    gameVariants "Blue/Red Version" = ["Blue/Red Version"] ∧
    '/' ∈ "Blue/Red Version".data := by
  decide

/-- C8 (amended): names without a slash yield exactly the original; the
original name is always the final variant; when the portion after the last
space contains the slash group, the variants are the shared prefix recombined
with each slash-separated alternative followed by the original; but when the
name contains a slash only before its last space, no recombined variants are
generated and the list is just the original name. -/
theorem claim8_variants :
    (∀ s : String, '/' ∉ s.data → gameVariants s = [s]) ∧
    (∀ s : String, (gameVariants s).getLast? = some s) ∧
    (∀ b t : List Char, ' ' ∉ t → '/' ∈ t → b ≠ [] →
      gameVariantsChars (b ++ ' ' :: t) =
        (splitOnChar '/' t).map (fun v => b ++ ' ' :: v) ++ [b ++ ' ' :: t]) ∧
    (∀ l : List Char, ' ' ∈ l → '/' ∈ l → '/' ∉ (rsplitSpace l).2 →
      gameVariantsChars l = [l]) := by
  refine ⟨?_, ?_, ?_, ?_⟩
  · intro s h
    simp only [gameVariants, gameVariantsChars, if_neg h]
    rfl
  · intro s
    simp only [gameVariants, gameVariantsChars, List.map_append, List.map_cons,
      List.map_nil]
    rw [List.getLast?_concat]
  · intro b t hsp hsl hb
    have h1 : '/' ∈ b ++ ' ' :: t := by
      simp [hsl]
    have h2 : ' ' ∈ b ++ ' ' :: t := by simp
    simp only [gameVariantsChars, if_pos h1, if_pos h2, rsplitSpace_append b t hsp,
      if_pos hsl, hb, ne_eq, not_false_iff, if_pos]
  · intro l hsp hsl hnot
    simp only [gameVariantsChars, if_pos hsl, if_pos hsp, if_neg hnot, List.nil_append]

theorem claim8_witness :
    gameVariantsChars ("Pokemon".data ++ ' ' :: "Blue/Red".data) =
      (splitOnChar '/' "Blue/Red".data).map (fun v => "Pokemon".data ++ ' ' :: v) ++
        ["Pokemon".data ++ ' ' :: "Blue/Red".data] :=
  claim8_variants.2.2.1 "Pokemon".data "Blue/Red".data (by decide) (by decide) (by decide)

/-! ### C7: priority order in detect_system_from_path -/

/-- C7: the folder-alias rules run in a fixed order with more specific tokens
first: a path whose upper-cased components contain both `GB` and `GBA` (and no
earlier-priority alias: `ARCADE`, `N64`/`NINTENDO64`, `PS`/`PS1`/`PSX`/
`PLAYSTATION`, `DC`/`DREAMCAST`) classifies as `GBA`, not `GB`; and whenever
any folder alias matches (the folder stage yields a tag) the classification is
that tag — the extension fallback is never consulted. -/
theorem claim7_folder_priority :
    (∀ p : RomPath, "GB" ∈ upperParts p → "GBA" ∈ upperParts p →
      "ARCADE" ∉ upperParts p →
      "N64" ∉ upperParts p → "NINTENDO64" ∉ upperParts p →
      "PS" ∉ upperParts p → "PS1" ∉ upperParts p → "PSX" ∉ upperParts p →
      "PLAYSTATION" ∉ upperParts p →
      "DC" ∉ upperParts p → "DREAMCAST" ∉ upperParts p →
      detectSystemFromPath p = "GBA") ∧
    (∀ (p : RomPath) (t : String), folderTag (upperParts p) = some t →
      detectSystemFromPath p = t) := by
  constructor
  · intro p hGB hGBA h1 h2 h3 h4 h5 h6 h7 h8 h9
    simp only [detectSystemFromPath]
    rw [if_neg h1, if_neg (by simp [h2, h3]), if_neg (by simp [h4, h5, h6, h7]),
      if_neg (by simp [h8, h9]), if_pos hGBA]
  · intro p t h
    simp only [folderTag] at h
    simp only [detectSystemFromPath]
    by_cases c1 : ("ARCADE" : String) ∈ upperParts p
    · rw [if_pos c1] at h
      rw [if_pos c1]
      exact Option.some.inj h
    rw [if_neg c1] at h
    rw [if_neg c1]
    by_cases c2 : ("N64" : String) ∈ upperParts p ∨ ("NINTENDO64" : String) ∈ upperParts p
    · rw [if_pos c2] at h
      rw [if_pos c2]
      exact Option.some.inj h
    rw [if_neg c2] at h
    rw [if_neg c2]
    by_cases c3 : ("PS" : String) ∈ upperParts p ∨ ("PS1" : String) ∈ upperParts p ∨ ("PSX" : String) ∈ upperParts p ∨ ("PLAYSTATION" : String) ∈ upperParts p
    · rw [if_pos c3] at h
      rw [if_pos c3]
      exact Option.some.inj h
    rw [if_neg c3] at h
    rw [if_neg c3]
    by_cases c4 : ("DC" : String) ∈ upperParts p ∨ ("DREAMCAST" : String) ∈ upperParts p
    · rw [if_pos c4] at h
      rw [if_pos c4]
      exact Option.some.inj h
    rw [if_neg c4] at h
    rw [if_neg c4]
    by_cases c5 : ("GBA" : String) ∈ upperParts p
    · rw [if_pos c5] at h
      rw [if_pos c5]
      exact Option.some.inj h
    rw [if_neg c5] at h
    rw [if_neg c5]
    by_cases c6 : ("GBC" : String) ∈ upperParts p
    · rw [if_pos c6] at h
      rw [if_pos c6]
      exact Option.some.inj h
    rw [if_neg c6] at h
    rw [if_neg c6]
    by_cases c7 : ("GB" : String) ∈ upperParts p ∧ ("GBA" : String) ∉ upperParts p ∧ ("GBC" : String) ∉ upperParts p
    · rw [if_pos c7] at h
      rw [if_pos c7]
      exact Option.some.inj h
    rw [if_neg c7] at h
    rw [if_neg c7]
    by_cases c8 : ("FC" : String) ∈ upperParts p ∨ ("NES" : String) ∈ upperParts p
    · rw [if_pos c8] at h
      rw [if_pos c8]
      exact Option.some.inj h
    rw [if_neg c8] at h
    rw [if_neg c8]
    by_cases c9 : ("SFC" : String) ∈ upperParts p ∨ ("SNES" : String) ∈ upperParts p
    · rw [if_pos c9] at h
      rw [if_pos c9]
      exact Option.some.inj h
    rw [if_neg c9] at h
    rw [if_neg c9]
    by_cases c10 : ("MD" : String) ∈ upperParts p ∨ ("GENESIS" : String) ∈ upperParts p ∨ ("MEGADRIVE" : String) ∈ upperParts p
    · rw [if_pos c10] at h
      rw [if_pos c10]
      exact Option.some.inj h
    rw [if_neg c10] at h
    rw [if_neg c10]
    by_cases c11 : ("NEOGEO" : String) ∈ upperParts p
    · rw [if_pos c11] at h
      rw [if_pos c11]
      exact Option.some.inj h
    rw [if_neg c11] at h
    rw [if_neg c11]
    by_cases c12 : ("ATARI" : String) ∈ upperParts p
    · rw [if_pos c12] at h
      rw [if_pos c12]
      exact Option.some.inj h
    rw [if_neg c12] at h
    rw [if_neg c12]
    by_cases c13 : ("PCE" : String) ∈ upperParts p ∨ ("PCENGINE" : String) ∈ upperParts p ∨ ("TURBOGRAFX" : String) ∈ upperParts p
    · rw [if_pos c13] at h
      rw [if_pos c13]
      exact Option.some.inj h
    rw [if_neg c13] at h
    rw [if_neg c13]
    by_cases c14 : ("MS" : String) ∈ upperParts p
    · rw [if_pos c14] at h
      rw [if_pos c14]
      exact Option.some.inj h
    rw [if_neg c14] at h
    rw [if_neg c14]
    by_cases c15 : ("GG" : String) ∈ upperParts p
    · rw [if_pos c15] at h
      rw [if_pos c15]
      exact Option.some.inj h
    rw [if_neg c15] at h
    rw [if_neg c15]
    exact absurd h (by simp)

theorem claim7_witness :
    detectSystemFromPath ⟨["GB", "GBA", "game.bin"]⟩ = "GBA" :=
  claim7_folder_priority.1 ⟨["GB", "GBA", "game.bin"]⟩ (by decide) (by decide)
    (by decide) (by decide) (by decide) (by decide) (by decide) (by decide)
    (by decide) (by decide) (by decide)

/-! ### C10: the disc-image extension fallback is unreachable without a PS segment -/

theorem char_toNat_ofNat {n : Nat} (h : n < 55296) : (Char.ofNat n).toNat = n := by
  have hv : Nat.isValidChar n := Or.inl h
  unfold Char.ofNat
  rw [dif_pos hv]
  simp [Char.ofNatAux, Char.toNat, UInt32.toNat]

theorem toUpper_eq_slash {c : Char} (h : Char.toUpper c = '/') : c = '/' := by
  simp only [Char.toUpper] at h
  split_ifs at h with hc
  · exfalso
    have h2 := congrArg Char.toNat h
    rw [char_toNat_ofNat (by omega)] at h2
    have h3 : Char.toNat '/' = 47 := by decide
    omega
  · exact h

theorem infix_append_right_of_head_notin {x : Char} {pat w rest : List Char}
    (hx : x ∉ w) (h : (x :: pat) <:+: w ++ rest) : (x :: pat) <:+: rest := by
  induction w with
  | nil => simpa using h
  | cons a w ih =>
    rw [List.cons_append] at h
    rcases List.infix_cons_iff.mp h with hpre | hinf
    · have hxa : x = a := (List.cons_prefix_cons.mp hpre).1
      exact absurd (hxa ▸ List.mem_cons_self a w) hx
    · exact ih (fun hm => hx (List.mem_cons_of_mem a hm)) hinf

theorem not_prefix_psSlash {ws : List (List Char)}
    (hw : ∀ w ∈ ws, '/' ∉ w ∧ w ≠ ['P', 'S']) :
    ¬ (['P', 'S', '/'] <+: joinSep '/' ws) := by
  intro hpre
  match ws with
  | [] => simp [joinSep] at hpre
  | [u] =>
    have : ('/' : Char) ∈ u := hpre.sublist.subset (by simp)
    exact (hw u (by simp)).1 this
  | u :: u2 :: us2 =>
    have hJ : joinSep '/' (u :: u2 :: us2) = u ++ '/' :: joinSep '/' (u2 :: us2) := rfl
    rw [hJ] at hpre
    rcases u with _ | ⟨c1, _ | ⟨c2, u'⟩⟩
    · rw [List.nil_append] at hpre
      have h1 := (List.cons_prefix_cons.mp hpre).1
      simp at h1
    · rw [List.singleton_append] at hpre
      obtain ⟨hc1, hrest⟩ := List.cons_prefix_cons.mp hpre
      have h1 := (List.cons_prefix_cons.mp hrest).1
      simp at h1
    · rw [List.cons_append, List.cons_append] at hpre
      obtain ⟨hc1, hrest⟩ := List.cons_prefix_cons.mp hpre
      obtain ⟨hc2, hrest2⟩ := List.cons_prefix_cons.mp hrest
      rcases u' with _ | ⟨d, u''⟩
      · subst hc1; subst hc2
        exact (hw ['P', 'S'] (by simp)).2 rfl
      · rw [List.cons_append] at hrest2
        have hd : ('/' : Char) = d := (List.cons_prefix_cons.mp hrest2).1
        exact (hw (c1 :: c2 :: d :: u'') (by simp)).1 (by simp [← hd])

theorem no_ps_infix {ws : List (List Char)}
    (hw : ∀ w ∈ ws, '/' ∉ w ∧ w ≠ ['P', 'S']) :
    ¬ (['/', 'P', 'S', '/'] <:+: joinSep '/' ws) := by
  induction ws with
  | nil => intro h; simp [joinSep] at h
  | cons u us ih =>
    intro h
    match us, h with
    | [], h =>
      have : ('/' : Char) ∈ u := h.sublist.subset (by simp)
      exact (hw u (by simp)).1 this
    | u2 :: us2, h =>
      have hJ : joinSep '/' (u :: u2 :: us2) = u ++ '/' :: joinSep '/' (u2 :: us2) := rfl
      rw [hJ] at h
      have h2 : ['/', 'P', 'S', '/'] <:+: '/' :: joinSep '/' (u2 :: us2) :=
        infix_append_right_of_head_notin (hw u (by simp)).1 h
      rcases List.infix_cons_iff.mp h2 with hpre | hinf
      · have h3 : ['P', 'S', '/'] <+: joinSep '/' (u2 :: us2) :=
          (List.cons_prefix_cons.mp hpre).2
        exact not_prefix_psSlash (fun w hwm => hw w (List.mem_cons_of_mem u hwm)) h3
      · exact ih (fun w hwm => hw w (List.mem_cons_of_mem u hwm)) hinf

theorem map_joinSep (f : Char → Char) (hf : f '/' = '/') :
    ∀ ws : List (List Char),
    (joinSep '/' ws).map f = joinSep '/' (ws.map (List.map f))
  | [] => rfl
  | [w] => rfl
  | w :: w2 :: ws2 => by
    have hJ : joinSep '/' (w :: w2 :: ws2) = w ++ '/' :: joinSep '/' (w2 :: ws2) := rfl
    rw [hJ, List.map_append, List.map_cons, hf, map_joinSep f hf (w2 :: ws2)]
    rfl

/-- C10: for a path none of whose upper-cased components matches a folder
alias, a file with a disc-image extension (`.chd`, `.iso`, `.cue`, `.bin`) is
classified `UNKNOWN`: the fallback branch mapping these extensions to `PS`
requires `/PS/` inside the upper-cased path string, which (components being
slash-free) forces a whole `PS` component, already excluded by the hypothesis
— the branch cannot fire. -/
theorem claim10_disc_fallback_unreachable (p : RomPath)
    (hs : ∀ s ∈ p.parts, ('/' : Char) ∉ s.data)
    (ha : ∀ u ∈ upperParts p, u ∉ folderAliasTokens)
    (he : extStr p ∈ [".chd", ".iso", ".cue", ".bin"]) :
    detectSystemFromPath p = "UNKNOWN" := by
  have hn : ∀ t : String, t ∈ folderAliasTokens → t ∉ upperParts p :=
    fun t ht hmem => ha t hmem ht
  have hps : ¬ (['/', 'P', 'S', '/'] <:+: pathStrU p) := by
    have hrw : pathStrU p =
        joinSep '/' ((p.parts.map String.data).map (List.map Char.toUpper)) := by
      simp only [pathStrU]
      exact map_joinSep Char.toUpper (by decide) _
    rw [hrw]
    apply no_ps_infix
    intro w hw
    obtain ⟨x, hx, rfl⟩ := List.mem_map.mp hw
    obtain ⟨s, hsmem, rfl⟩ := List.mem_map.mp hx
    constructor
    · intro hsl
      obtain ⟨c, hc, hceq⟩ := List.mem_map.mp hsl
      exact hs s hsmem (toUpper_eq_slash hceq ▸ hc)
    · intro heq
      apply ha ⟨s.data.map Char.toUpper⟩
      · simp only [upperParts, List.mem_map]
        exact ⟨s, hsmem, rfl⟩
      · rw [show (⟨s.data.map Char.toUpper⟩ : String) = ⟨['P', 'S']⟩ from by rw [heq]]
        decide
  simp only [detectSystemFromPath]
  rw [if_neg (hn "ARCADE" (by decide)),
    if_neg (not_or.mpr ⟨hn "N64" (by decide), hn "NINTENDO64" (by decide)⟩),
    if_neg (by
      simp only [not_or]
      exact ⟨hn "PS" (by decide), hn "PS1" (by decide), hn "PSX" (by decide),
        hn "PLAYSTATION" (by decide)⟩),
    if_neg (not_or.mpr ⟨hn "DC" (by decide), hn "DREAMCAST" (by decide)⟩),
    if_neg (hn "GBA" (by decide)),
    if_neg (hn "GBC" (by decide)),
    if_neg (fun hand => hn "GB" (by decide) hand.1),
    if_neg (not_or.mpr ⟨hn "FC" (by decide), hn "NES" (by decide)⟩),
    if_neg (not_or.mpr ⟨hn "SFC" (by decide), hn "SNES" (by decide)⟩),
    if_neg (by
      simp only [not_or]
      exact ⟨hn "MD" (by decide), hn "GENESIS" (by decide), hn "MEGADRIVE" (by decide)⟩),
    if_neg (hn "NEOGEO" (by decide)),
    if_neg (hn "ATARI" (by decide)),
    if_neg (by
      simp only [not_or]
      exact ⟨hn "PCE" (by decide), hn "PCENGINE" (by decide), hn "TURBOGRAFX" (by decide)⟩),
    if_neg (hn "MS" (by decide)),
    if_neg (hn "GG" (by decide))]
  have hdisc : ¬ (extStr p ∈ [".chd", ".iso", ".cue", ".bin"] ∧
      ['/', 'P', 'S', '/'] <:+: pathStrU p) := fun hand => hps hand.2
  simp only [List.mem_cons, List.mem_nil_iff, or_false] at he
  rcases he with he | he | he | he <;>
    rw [he, if_neg (by decide), if_neg (by decide), if_neg (by decide), if_neg (by decide), if_neg (by decide), if_neg (by decide), if_neg (by decide), if_neg (by decide), if_neg (by decide), if_neg (by decide), if_neg (fun hand => hps hand.2)]

theorem claim10_witness :
    detectSystemFromPath ⟨["files", "game.iso"]⟩ = "UNKNOWN" :=
  claim10_disc_fallback_unreachable ⟨["files", "game.iso"]⟩
    (by decide) (by decide) (by decide)

/-! ### C5: the acceptance threshold -/

theorem ite_lt_max (a b : ℚ) : (if a < b then b else a) = max a b := by
  split_ifs with h
  · exact (max_eq_right h.le).symm
  · exact (max_eq_left (not_lt.mp h)).symm

theorem foldr_max_pull (l : List ℚ) (b x : ℚ) :
    l.foldr max (max b x) = max x (l.foldr max b) := by
  induction l with
  | nil => simp [max_comm]
  | cons a l ih => simp only [List.foldr_cons, ih, max_left_comm]

theorem foldr_max_swap (A B : List ℚ) (b : ℚ) :
    A.foldr max (B.foldr max b) = B.foldr max (A.foldr max b) := by
  induction A with
  | nil => rfl
  | cons a A ih =>
    simp only [List.foldr_cons, ih]
    rw [show max a (B.foldr max (A.foldr max b)) =
        B.foldr max (max (A.foldr max b) a) from (foldr_max_pull B _ a).symm,
      max_comm (A.foldr max b) a]

theorem mem_le_foldr_max {x : ℚ} {l : List ℚ} (h : x ∈ l) (b : ℚ) :
    x ≤ l.foldr max b := by
  induction l with
  | nil => cases h
  | cons a l ih =>
    rcases List.mem_cons.mp h with rfl | hmem
    · exact le_max_left _ _
    · exact le_trans (ih hmem) (le_max_right _ _)

theorem runCands_inv (muos g : String) (cands : List RomPath) :
    ∀ (best : Option RomPath) (bs : ℚ), (best = none → bs = 0) →
    (∀ r, runCands muos g cands best bs = .error r → r.isSome = true) ∧
    (∀ b s, runCands muos g cands best bs = .ok (b, s) → (b = none → s = 0)) := by
  induction cands with
  | nil =>
    intro best bs hinv
    constructor
    · intro r hr; cases hr
    · intro b s hbs
      injection hbs with h
      injection h with h1 h2
      rw [← h1, ← h2]; exact hinv
  | cons rom rest ih =>
    intro best bs hinv
    by_cases h : detectSystemFromPath rom ≠ muos ∧ detectSystemFromPath rom ≠ "UNKNOWN"
    · simpa only [runCands, if_pos h] using ih best bs hinv
    · have hinv' : (if bs < matchScore g (normalizeName (stemStr rom))
          then some rom else best) = none →
          (if bs < matchScore g (normalizeName (stemStr rom))
            then matchScore g (normalizeName (stemStr rom)) else bs) = 0 := by
        split_ifs with hlt
        · intro hx; cases hx
        · exact hinv
      by_cases hsc : 1 ≤ matchScore g (normalizeName (stemStr rom))
      · have hstep : runCands muos g (rom :: rest) best bs =
            .error (if bs < matchScore g (normalizeName (stemStr rom))
              then some rom else best) := by
          simp only [runCands, if_neg h, if_pos hsc]
        refine ⟨fun r hr => ?_, fun b s hbs => ?_⟩
        · rw [hstep] at hr
          injection hr with hr
          rw [← hr]
          split_ifs with hlt
          · rfl
          · cases hb : best with
            | none =>
              exfalso
              have h0 : bs = 0 := hinv hb
              rw [h0] at hlt
              have : (0 : ℚ) < 1 := by norm_num
              exact hlt (lt_of_lt_of_le this hsc)
            | some x => rfl
        · rw [hstep] at hbs; cases hbs
      · have hstep : runCands muos g (rom :: rest) best bs =
            runCands muos g rest
              (if bs < matchScore g (normalizeName (stemStr rom)) then some rom else best)
              (if bs < matchScore g (normalizeName (stemStr rom))
                then matchScore g (normalizeName (stemStr rom)) else bs) := by
          simp only [runCands, if_neg h, if_neg hsc]
        rw [hstep]
        exact ih _ _ hinv'

theorem runCands_ok_fold (muos g : String) (cands : List RomPath)
    (hall : ∀ r ∈ cands, eligibleFor muos r = true) :
    ∀ (best : Option RomPath) (bs : ℚ) (b : Option RomPath) (s : ℚ),
    runCands muos g cands best bs = .ok (b, s) →
    s = (cands.map (fun r => matchScore g (normalizeName (stemStr r)))).foldr max bs := by
  induction cands with
  | nil =>
    intro best bs b s hbs
    injection hbs with h
    injection h with _ h2
    rw [← h2]; rfl
  | cons rom rest ih =>
    intro best bs b s hbs
    have helig : eligibleFor muos rom = true := hall rom (by simp)
    have h : ¬ (detectSystemFromPath rom ≠ muos ∧ detectSystemFromPath rom ≠ "UNKNOWN") := by
      intro hcon
      rw [eligibleFor_false_iff.mpr hcon] at helig
      cases helig
    by_cases hsc : 1 ≤ matchScore g (normalizeName (stemStr rom))
    · have hstep : runCands muos g (rom :: rest) best bs =
          .error (if bs < matchScore g (normalizeName (stemStr rom))
            then some rom else best) := by
        simp only [runCands, if_neg h, if_pos hsc]
      rw [hstep] at hbs; cases hbs
    · have hstep : runCands muos g (rom :: rest) best bs =
          runCands muos g rest
            (if bs < matchScore g (normalizeName (stemStr rom)) then some rom else best)
            (if bs < matchScore g (normalizeName (stemStr rom))
              then matchScore g (normalizeName (stemStr rom)) else bs) := by
        simp only [runCands, if_neg h, if_neg hsc]
      rw [hstep] at hbs
      have hrec := ih (fun r hr => hall r (by simp [hr])) _ _ b s hbs
      rw [hrec, ite_lt_max, List.map_cons, List.foldr_cons,
        show (rest.map (fun r => matchScore g (normalizeName (stemStr r)))).foldr max
            (max bs (matchScore g (normalizeName (stemStr rom)))) =
          max (matchScore g (normalizeName (stemStr rom)))
            ((rest.map (fun r => matchScore g (normalizeName (stemStr r)))).foldr max bs)
          from foldr_max_pull _ bs _]

theorem runCands_error_exists (muos g : String) (cands : List RomPath) :
    ∀ (best : Option RomPath) (bs : ℚ) (r : Option RomPath),
    runCands muos g cands best bs = .error r →
    ∃ c ∈ cands, eligibleFor muos c = true ∧
      1 ≤ matchScore g (normalizeName (stemStr c)) := by
  induction cands with
  | nil => intro best bs r hr; cases hr
  | cons rom rest ih =>
    intro best bs r hr
    by_cases h : detectSystemFromPath rom ≠ muos ∧ detectSystemFromPath rom ≠ "UNKNOWN"
    · rw [show runCands muos g (rom :: rest) best bs = runCands muos g rest best bs from by
        simp only [runCands, if_pos h]] at hr
      obtain ⟨c, hc, helig, hsc⟩ := ih best bs r hr
      exact ⟨c, by simp [hc], helig, hsc⟩
    · have helig : eligibleFor muos rom = true := by
        rw [eligibleFor_true_iff]
        by_cases hd : detectSystemFromPath rom = muos
        · exact Or.inl hd
        · push_neg at h
          exact Or.inr (h hd)
      by_cases hsc : 1 ≤ matchScore g (normalizeName (stemStr rom))
      · exact ⟨rom, by simp, helig, hsc⟩
      · rw [show runCands muos g (rom :: rest) best bs =
            runCands muos g rest
              (if bs < matchScore g (normalizeName (stemStr rom)) then some rom else best)
              (if bs < matchScore g (normalizeName (stemStr rom))
                then matchScore g (normalizeName (stemStr rom)) else bs) from by
          simp only [runCands, if_neg h, if_neg hsc]] at hr
        obtain ⟨c, hc, helig2, hsc2⟩ := ih _ _ r hr
        exact ⟨c, by simp [hc], helig2, hsc2⟩

theorem runVariants_filter (muos : String) (cands : List RomPath) :
    ∀ (vs : List String) (best : Option RomPath) (bs : ℚ),
    runVariants muos cands vs best bs =
      runVariants muos (cands.filter (eligibleFor muos)) vs best bs := by
  intro vs
  induction vs with
  | nil => intro best bs; rfl
  | cons v vs ih =>
    intro best bs
    simp only [runVariants, ← runCands_filter]
    cases runCands muos (normalizeName v) cands best bs with
    | error r => rfl
    | ok p => exact ih p.1 p.2

theorem runVariants_inv (muos : String) (cands : List RomPath) :
    ∀ (vs : List String) (best : Option RomPath) (bs : ℚ), (best = none → bs = 0) →
    (∀ r, runVariants muos cands vs best bs = .error r → r.isSome = true) ∧
    (∀ b s, runVariants muos cands vs best bs = .ok (b, s) → (b = none → s = 0)) := by
  intro vs
  induction vs with
  | nil =>
    intro best bs hinv
    constructor
    · intro r hr; cases hr
    · intro b s hbs
      injection hbs with hp
      injection hp with h1 h2
      rw [← h1, ← h2]; exact hinv
  | cons v vs ih =>
    intro best bs hinv
    simp only [runVariants]
    cases hrc : runCands muos (normalizeName v) cands best bs with
    | error r =>
      refine ⟨fun r' hr' => ?_, fun b s hbs => by cases hbs⟩
      injection hr' with hr'
      rw [← hr']
      exact (runCands_inv muos (normalizeName v) cands best bs hinv).1 r hrc
    | ok p =>
      obtain ⟨b0, s0⟩ := p
      exact ih b0 s0 ((runCands_inv muos (normalizeName v) cands best bs hinv).2 b0 s0 hrc)

theorem runVariants_ok_fold (muos : String) (cands : List RomPath)
    (hall : ∀ r ∈ cands, eligibleFor muos r = true) :
    ∀ (vs : List String) (best : Option RomPath) (bs : ℚ) (b : Option RomPath) (s : ℚ),
    runVariants muos cands vs best bs = .ok (b, s) →
    s = (vs.flatMap (fun v => cands.map
          (fun r => matchScore (normalizeName v) (normalizeName (stemStr r))))).foldr max bs := by
  intro vs
  induction vs with
  | nil =>
    intro best bs b s hbs
    injection hbs with hp
    injection hp with _ h2
    rw [← h2]; rfl
  | cons v vs ih =>
    intro best bs b s hbs
    simp only [runVariants] at hbs
    cases hrc : runCands muos (normalizeName v) cands best bs with
    | error r => rw [hrc] at hbs; cases hbs
    | ok p =>
      obtain ⟨b0, s0⟩ := p
      rw [hrc] at hbs
      have hs0 := runCands_ok_fold muos (normalizeName v) cands hall best bs b0 s0 hrc
      have hrec := ih b0 s0 b s hbs
      rw [hrec, hs0, List.flatMap_cons, List.foldr_append, foldr_max_swap]

theorem runVariants_error_exists (muos : String) (cands : List RomPath) :
    ∀ (vs : List String) (best : Option RomPath) (bs : ℚ) (r : Option RomPath),
    runVariants muos cands vs best bs = .error r →
    ∃ v ∈ vs, ∃ c ∈ cands, eligibleFor muos c = true ∧
      1 ≤ matchScore (normalizeName v) (normalizeName (stemStr c)) := by
  intro vs
  induction vs with
  | nil => intro best bs r hr; cases hr
  | cons v vs ih =>
    intro best bs r hr
    simp only [runVariants] at hr
    cases hrc : runCands muos (normalizeName v) cands best bs with
    | error r0 =>
      rw [hrc] at hr
      obtain ⟨c, hc, helig, hsc⟩ := runCands_error_exists muos (normalizeName v) cands best bs r0 hrc
      exact ⟨v, by simp, c, hc, helig, hsc⟩
    | ok p =>
      obtain ⟨b0, s0⟩ := p
      rw [hrc] at hr
      obtain ⟨v', hv', c, hc, helig, hsc⟩ := ih b0 s0 r hr
      exact ⟨v', by simp [hv'], c, hc, helig, hsc⟩

/-- C5: `find_rom_for_game` returns a file exactly when the best score over
all (variant, eligible candidate) pairs is at least `0.5`; a best score of
exactly `0.5` is accepted, any best score strictly below yields no file. -/
theorem claim5_threshold (game system : String) (idx : List (String × List RomPath)) :
    (findRomForGame game system idx).isSome = true ↔
      mkRat 1 2 ≤ specBestScore game system idx := by
  have hfold :
      ∀ b s, runVariants (muosFolder system) (candidatesFor system idx)
          (gameVariants game) none 0 = .ok (b, s) →
          s = specBestScore game system idx := by
    intro b s hrv
    rw [runVariants_filter] at hrv
    have := runVariants_ok_fold (muosFolder system)
      ((candidatesFor system idx).filter (eligibleFor (muosFolder system)))
      (fun r hr => (List.mem_filter.mp hr).2)
      (gameVariants game) none 0 b s hrv
    rw [this]; rfl
  constructor
  · intro h
    unfold findRomForGame at h
    by_cases hc : candidatesFor system idx = []
    · rw [if_pos hc] at h; cases h
    · rw [if_neg hc] at h
      cases hrv : runVariants (muosFolder system) (candidatesFor system idx)
          (gameVariants game) none 0 with
      | error r =>
        obtain ⟨v, hv, c, hcmem, helig, hsc⟩ :=
          runVariants_error_exists _ _ _ none 0 r hrv
        have hmem : matchScore (normalizeName v) (normalizeName (stemStr c)) ∈
            (gameVariants game).flatMap (fun v => (eligCands system idx).map
              (fun r => matchScore (normalizeName v) (normalizeName (stemStr r)))) := by
          rw [List.mem_flatMap]
          exact ⟨v, hv, List.mem_map.mpr
            ⟨c, List.mem_filter.mpr ⟨hcmem, helig⟩, rfl⟩⟩
        have hle := mem_le_foldr_max hmem 0
        have h12 : (mkRat 1 2 : ℚ) ≤ 1 := by decide
        exact le_trans (le_trans h12 hsc) hle
      | ok p =>
        obtain ⟨b, s⟩ := p
        rw [hrv] at h
        have h' : (if b.isSome = true ∧ mkRat 1 2 ≤ s then b else none).isSome = true := h
        split_ifs at h' with hcond
        · rw [← hfold b s hrv]
          exact hcond.2
        · cases h'
  · intro hspec
    unfold findRomForGame
    by_cases hc : candidatesFor system idx = []
    · exfalso
      have hzero : specBestScore game system idx = 0 := by
        have hnil : ∀ L : List String, (L.flatMap fun _ => ([] : List ℚ)) = [] := by
          intro L
          induction L with
          | nil => rfl
          | cons a L ih => simp [ih]
        simp [specBestScore, eligCands, hc, hnil]
      rw [hzero] at hspec
      exact absurd hspec (by decide)
    · rw [if_neg hc]
      cases hrv : runVariants (muosFolder system) (candidatesFor system idx)
          (gameVariants game) none 0 with
      | error r =>
        exact (runVariants_inv _ _ _ none 0 (fun _ => rfl)).1 r hrv
      | ok p =>
        obtain ⟨b, s⟩ := p
        have hs : s = specBestScore game system idx := hfold b s hrv
        have hbs : b.isSome = true := by
          cases hb : b with
          | none =>
            exfalso
            have h0 : s = 0 :=
              (runVariants_inv _ _ _ none 0 (fun _ => rfl)).2 b s hrv hb
            rw [h0] at hs
            rw [← hs] at hspec
            exact absurd hspec (by decide)
          | some x => rfl
        have hcond : b.isSome = true ∧ mkRat 1 2 ≤ s := ⟨hbs, by rw [hs]; exact hspec⟩
        show (if b.isSome = true ∧ mkRat 1 2 ≤ s then b else none).isSome = true
        rw [if_pos hcond]
        exact hbs

/-! ### C9: entries whose name normalizes to the empty string -/

theorem score_empty_query (r : String) :
    matchScore "" r = if r = "" then 1 else mkRat 4 5 := by
  by_cases h : r = ""
  · rw [if_pos h, h]
    rfl
  · rw [if_neg h]
    have hin : pyIn "" r = true := by
      simp only [pyIn, decide_eq_true_eq]
      exact List.nil_infix
    simp only [matchScore]
    rw [if_neg (fun hh : "" = r => h hh.symm), if_pos hin]

theorem runCands_empty_from_strong (muos : String) (cands : List RomPath) :
    ∀ r₀ : RomPath, runCands muos "" cands (some r₀) (mkRat 4 5) =
      match (cands.filter (eligibleFor muos)).find?
          (fun r => normalizeName (stemStr r) == "") with
      | some r => .error (some r)
      | none => .ok (some r₀, mkRat 4 5) := by
  induction cands with
  | nil => intro r₀; rfl
  | cons c rest ih =>
    intro r₀
    by_cases h : detectSystemFromPath c ≠ muos ∧ detectSystemFromPath c ≠ "UNKNOWN"
    · have hfe : eligibleFor muos c = false := eligibleFor_false_iff.mpr h
      rw [show runCands muos "" (c :: rest) (some r₀) (mkRat 4 5) =
          runCands muos "" rest (some r₀) (mkRat 4 5) from by
        simp only [runCands, if_pos h]]
      rw [show List.filter (eligibleFor muos) (c :: rest) =
          List.filter (eligibleFor muos) rest from by
        simp [List.filter_cons, hfe]]
      exact ih r₀
    · have hfe : eligibleFor muos c = true := by
        rw [eligibleFor_true_iff]
        by_cases hd : detectSystemFromPath c = muos
        · exact Or.inl hd
        · push_neg at h
          exact Or.inr (h hd)
      rw [show List.filter (eligibleFor muos) (c :: rest) =
          c :: List.filter (eligibleFor muos) rest from by
        simp [List.filter_cons, hfe]]
      by_cases hrn : normalizeName (stemStr c) = ""
      · have hsc : matchScore "" (normalizeName (stemStr c)) = 1 := by
          rw [score_empty_query, if_pos hrn]
        have hstep : runCands muos "" (c :: rest) (some r₀) (mkRat 4 5) =
            .error (some c) := by
          simp only [runCands, if_neg h, hsc]
          rw [if_pos (show mkRat 4 5 < 1 from by decide),
            if_pos (show (1 : ℚ) ≤ 1 from le_refl 1)]
        rw [hstep, List.find?_cons_of_pos _ (by simp [hrn])]
      · have hsc : matchScore "" (normalizeName (stemStr c)) = mkRat 4 5 := by
          rw [score_empty_query, if_neg hrn]
        have hstep : runCands muos "" (c :: rest) (some r₀) (mkRat 4 5) =
            runCands muos "" rest (some r₀) (mkRat 4 5) := by
          simp only [runCands, if_neg h, hsc]
          rw [ite_self, if_neg (show ¬ mkRat 4 5 < mkRat 4 5 from lt_irrefl _),
            if_neg (show ¬ (1 : ℚ) ≤ mkRat 4 5 from by decide)]
        rw [hstep, List.find?_cons_of_neg _ (by simp [hrn])]
        exact ih r₀

theorem runCands_empty_from_none (muos : String) (cands : List RomPath) :
    runCands muos "" cands none 0 =
      match (cands.filter (eligibleFor muos)).find?
          (fun r => normalizeName (stemStr r) == "") with
      | some r => .error (some r)
      | none =>
        match (cands.filter (eligibleFor muos)).head? with
        | some c => .ok (some c, mkRat 4 5)
        | none => .ok (none, 0) := by
  induction cands with
  | nil => rfl
  | cons c rest ih =>
    by_cases h : detectSystemFromPath c ≠ muos ∧ detectSystemFromPath c ≠ "UNKNOWN"
    · have hfe : eligibleFor muos c = false := eligibleFor_false_iff.mpr h
      rw [show runCands muos "" (c :: rest) none 0 =
          runCands muos "" rest none 0 from by
        simp only [runCands, if_pos h]]
      rw [show List.filter (eligibleFor muos) (c :: rest) =
          List.filter (eligibleFor muos) rest from by
        simp [List.filter_cons, hfe]]
      exact ih
    · have hfe : eligibleFor muos c = true := by
        rw [eligibleFor_true_iff]
        by_cases hd : detectSystemFromPath c = muos
        · exact Or.inl hd
        · push_neg at h
          exact Or.inr (h hd)
      rw [show List.filter (eligibleFor muos) (c :: rest) =
          c :: List.filter (eligibleFor muos) rest from by
        simp [List.filter_cons, hfe]]
      by_cases hrn : normalizeName (stemStr c) = ""
      · have hsc : matchScore "" (normalizeName (stemStr c)) = 1 := by
          rw [score_empty_query, if_pos hrn]
        have hstep : runCands muos "" (c :: rest) none 0 = .error (some c) := by
          simp only [runCands, if_neg h, hsc]
          rw [if_pos (show (0 : ℚ) < 1 from by decide),
            if_pos (show (1 : ℚ) ≤ 1 from le_refl 1)]
        rw [hstep, List.find?_cons_of_pos _ (by simp [hrn])]
      · have hsc : matchScore "" (normalizeName (stemStr c)) = mkRat 4 5 := by
          rw [score_empty_query, if_neg hrn]
        have hstep : runCands muos "" (c :: rest) none 0 =
            runCands muos "" rest (some c) (mkRat 4 5) := by
          simp only [runCands, if_neg h, hsc]
          rw [if_pos (show (0 : ℚ) < mkRat 4 5 from by decide),
            if_pos (show (0 : ℚ) < mkRat 4 5 from by decide),
            if_neg (show ¬ (1 : ℚ) ≤ mkRat 4 5 from by decide)]
        rw [hstep, runCands_empty_from_strong muos rest c,
          List.find?_cons_of_neg _ (by simp [hrn]), List.head?_cons]

/-- C9 (counterexample): with an empty normalized query, a candidate whose
stem also normalizes to the empty string scores `1.0` (the exact tier fires,
not the `0.8` substring tier) and short-circuits, so the returned file is that
candidate rather than the first eligible one: the claim that every candidate
scores `0.8` and the first eligible candidate is returned is false. -/
theorem claim9_ce :
    normalizeName "The" = "" ∧
    ((candidatesFor "GB" idxEmptyStem).filter (eligibleFor (muosFolder "GB"))).head? =
      some marioPath ∧
    findRomForGame "The" "GB" idxEmptyStem = some emptyStemPath ∧
    emptyStemPath ≠ marioPath := by
  decide

/-- C9 (amended): if an entry's name normalizes to the empty string (and
contains no slash, so the name itself is the only variant) and its eligible
candidate pool is non-empty, `find_rom_for_game` accepts a match: every
eligible candidate with a non-empty normalized stem scores `0.8` via the
substring tier (the empty string is a substring of every string), while one
with an empty normalized stem scores `1.0` and returns at once.  The file
returned is the first eligible candidate whose stem also normalizes to the
empty string if one exists, otherwise the first eligible candidate. -/
theorem claim9_empty_query (name system : String)
    (idx : List (String × List RomPath))
    (hempty : normalizeName name = "")
    (hslash : ('/' : Char) ∉ name.data)
    (hne : (candidatesFor system idx).filter (eligibleFor (muosFolder system)) ≠ []) :
    findRomForGame name system idx =
      match ((candidatesFor system idx).filter (eligibleFor (muosFolder system))).find?
          (fun r => normalizeName (stemStr r) == "") with
      | some r => some r
      | none =>
        ((candidatesFor system idx).filter (eligibleFor (muosFolder system))).head? := by
  have hvar : gameVariants name = [name] := by
    simp only [gameVariants, gameVariantsChars, if_neg hslash]
    rfl
  have hc : candidatesFor system idx ≠ [] := by
    intro hnil
    rw [hnil] at hne
    exact hne rfl
  unfold findRomForGame
  rw [if_neg hc, hvar]
  have hrv : runVariants (muosFolder system) (candidatesFor system idx) [name] none 0 =
      match runCands (muosFolder system) (normalizeName name)
          (candidatesFor system idx) none 0 with
      | .error r => .error r
      | .ok (b, s) => .ok (b, s) := by
    simp only [runVariants]
  rw [hrv, hempty, runCands_empty_from_none]
  cases hfind : ((candidatesFor system idx).filter
      (eligibleFor (muosFolder system))).find?
      (fun r => normalizeName (stemStr r) == "") with
  | some r => rfl
  | none =>
    cases hhead : ((candidatesFor system idx).filter
        (eligibleFor (muosFolder system))).head? with
    | none => exact absurd (List.head?_eq_none_iff.mp hhead) hne
    | some c =>
      show (if (some c).isSome = true ∧ mkRat 1 2 ≤ mkRat 4 5 then some c else none) =
        some c
      rw [if_pos ⟨rfl, by decide⟩]

theorem claim9_witness : findRomForGame "The" "Game Boy" idxGB = some tetrisPath :=
  (claim9_empty_query "The" "Game Boy" idxGB (by decide) (by decide) (by decide)).trans
    (by decide)

/-! ### C4: idempotence of normalize_name

The second application of the pipeline is shown to be the identity on the
image of the first: the output contains no matchable bracket pair (for inputs
without a newline), none of the replaced characters, only lower-stable
characters, and words that re-split to themselves. -/

open List

theorem toLower_idem (c : Char) : Char.toLower (Char.toLower c) = Char.toLower c := by
  by_cases h : c.toNat ≥ 65 ∧ c.toNat ≤ 90
  · have h1 : Char.toLower c = Char.ofNat (c.toNat + 32) := by
      simp only [Char.toLower, if_pos h]
    rw [h1]
    have h2 : (Char.ofNat (c.toNat + 32)).toNat = c.toNat + 32 :=
      char_toNat_ofNat (by omega)
    simp only [Char.toLower, h2]
    rw [if_neg (by omega)]
  · simp only [Char.toLower]
    rw [if_neg h, if_neg h]

theorem toLower_fix {y b : Char} (h : Char.toLower y = b)
    (hb : b.toNat < 97 ∨ 122 < b.toNat) : y = b := by
  by_cases hy : y.toNat ≥ 65 ∧ y.toNat ≤ 90
  · exfalso
    have h1 : Char.toLower y = Char.ofNat (y.toNat + 32) := by
      simp only [Char.toLower, if_pos hy]
    have h2 : (Char.ofNat (y.toNat + 32)).toNat = y.toNat + 32 :=
      char_toNat_ofNat (by omega)
    rw [h1] at h
    rw [h] at h2
    omega
  · rw [← h]
    simp only [Char.toLower]
    rw [if_neg hy]

theorem charRepl_of_mem {c d : Char} (hd : d ∈ charRepl c) : charRepl d = [d] := by
  simp only [charRepl] at hd
  split_ifs at hd with h1 h2 h3 h4 h5 h6 h7 h8
  · cases hd
  · simp only [List.mem_singleton] at hd
    subst hd; rfl
  · simp only [List.mem_singleton] at hd
    subst hd; rfl
  · cases hd
  · simp only [List.mem_cons, List.mem_singleton] at hd
    rcases hd with rfl | rfl | hd
    · rfl
    · rfl
    · simp only [List.mem_nil_iff, or_false] at hd
      subst hd; rfl
  · cases hd
  · cases hd
  · cases hd
  · simp only [List.mem_singleton] at hd
    subst hd
    simp only [charRepl]
    rw [if_neg h1, if_neg h2, if_neg h3, if_neg h4, if_neg h5, if_neg h6,
      if_neg h7, if_neg h8]

theorem charRepl_toLower {y : Char} (hy : charRepl y = [y]) :
    charRepl (Char.toLower y) = [Char.toLower y] := by
  by_cases h : 97 ≤ (Char.toLower y).toNat ∧ (Char.toLower y).toNat ≤ 122
  · simp only [charRepl]
    rw [if_neg (fun he => absurd (he ▸ h) (by decide)),
      if_neg (fun he => absurd (he ▸ h) (by decide)),
      if_neg (fun he => absurd (he ▸ h) (by decide)),
      if_neg (fun he => absurd (he ▸ h) (by decide)),
      if_neg (fun he => absurd (he ▸ h) (by decide)),
      if_neg (fun he => absurd (he ▸ h) (by decide)),
      if_neg (fun he => absurd (he ▸ h) (by decide)),
      if_neg (fun he => absurd (he ▸ h) (by decide))]
  · have hy2 : Char.toLower y = y := by
      simp only [Char.toLower]
      rw [if_neg]
      intro hc
      apply h
      have h1 : Char.toLower y = Char.ofNat (y.toNat + 32) := by
        simp only [Char.toLower, if_pos hc]
      have h2 : (Char.toLower y).toNat = y.toNat + 32 := by
        rw [h1]
        exact char_toNat_ofNat (by omega)
      omega
    rw [hy2]
    exact hy

theorem mem_charRepl_of_target {z y : Char} (hm : y ∈ charRepl z)
    (hy : y.toNat < 32 ∨ 37 < y.toNat ∧ y.toNat < 97 ∨ 122 < y.toNat) : z = y := by
  simp only [charRepl] at hm
  split_ifs at hm with h1 h2 h3 h4 h5 h6 h7 h8
  · cases hm
  · simp only [List.mem_singleton] at hm
    subst hm
    exact absurd hy (by decide)
  · simp only [List.mem_singleton] at hm
    subst hm
    exact absurd hy (by decide)
  · cases hm
  · simp only [List.mem_cons, List.mem_singleton] at hm
    rcases hm with rfl | rfl | hm
    · exact absurd hy (by decide)
    · exact absurd hy (by decide)
    · simp only [List.mem_nil_iff, or_false] at hm
      subst hm
      exact absurd hy (by decide)
  · cases hm
  · cases hm
  · cases hm
  · simp only [List.mem_singleton] at hm
    exact hm.symm

theorem pair_cons {o c x : Char} {t : List Char} (h : [o, c] <+ x :: t) :
    (x = o ∧ c ∈ t) ∨ [o, c] <+ t := by
  cases h with
  | cons _ h2 => exact Or.inr h2
  | cons₂ _ h2 => exact Or.inl ⟨rfl, List.singleton_sublist.mp h2⟩

theorem pair_append {o c : Char} {A B : List Char} (h : [o, c] <+ A ++ B) :
    [o, c] <+ A ∨ (o ∈ A ∧ c ∈ B) ∨ [o, c] <+ B := by
  induction A with
  | nil => exact Or.inr (Or.inr (by simpa using h))
  | cons a A ih =>
    rw [List.cons_append] at h
    rcases pair_cons h with ⟨rfl, hc⟩ | h2
    · rcases List.mem_append.mp hc with hc | hc
      · exact Or.inl (List.Sublist.cons₂ a (List.singleton_sublist.mpr hc))
      · exact Or.inr (Or.inl ⟨List.mem_cons_self a A, hc⟩)
    · rcases ih h2 with h3 | ⟨h3, h4⟩ | h3
      · exact Or.inl (List.Sublist.cons a h3)
      · exact Or.inr (Or.inl ⟨List.mem_cons_of_mem a h3, h4⟩)
      · exact Or.inr (Or.inr h3)

theorem pair_build {o c : Char} {A B : List Char} (ho : o ∈ A) (hc : c ∈ B) :
    [o, c] <+ A ++ B :=
  List.Sublist.append (List.singleton_sublist.mpr ho) (List.singleton_sublist.mpr hc)

theorem stripAux_eq_drop (o c : Char) :
    ∀ (l : List Char) (n : Nat), stripAux o c l n = stripTags o c (l.drop n) := by
  intro l
  induction l with
  | nil => intro n; cases n <;> rfl
  | cons x rest ih =>
    intro n
    cases n with
    | zero => rfl
    | succ n =>
      show stripAux o c rest n = stripTags o c (rest.drop n)
      exact ih n

theorem findClose_none {c : Char} :
    ∀ l : List Char, ('\n' : Char) ∉ l → findClose c l = none → c ∉ l := by
  intro l
  induction l with
  | nil => intro _ _; exact List.not_mem_nil c
  | cons x rest ih =>
    intro hnl h hmem
    simp only [findClose] at h
    by_cases h1 : x = c
    · rw [if_pos h1] at h; cases h
    · rw [if_neg h1] at h
      by_cases h2 : x = '\n'
      · exact hnl (by rw [← h2]; exact List.mem_cons_self x rest)
      · rw [if_neg h2] at h
        have hn : findClose c rest = none := by
          cases hfc : findClose c rest with
          | none => rfl
          | some k => rw [hfc] at h; cases h
        rcases List.mem_cons.mp hmem with rfl | hmem2
        · exact h1 rfl
        · exact ih (fun hm => hnl (List.mem_cons_of_mem x hm)) hn hmem2

theorem findClose_some_mem {c : Char} :
    ∀ (l : List Char) (k : Nat), findClose c l = some k → c ∈ l := by
  intro l
  induction l with
  | nil => intro k h; cases h
  | cons x rest ih =>
    intro k h
    simp only [findClose] at h
    by_cases h1 : x = c
    · rw [← h1]; exact List.mem_cons_self x rest
    · rw [if_neg h1] at h
      by_cases h2 : x = '\n'
      · rw [if_pos h2] at h; cases h
      · rw [if_neg h2] at h
        cases hfc : findClose c rest with
        | none => rw [hfc] at h; cases h
        | some k2 => exact List.mem_cons_of_mem x (ih k2 hfc)

theorem stripTags_sub_aux (o c : Char) :
    ∀ (m : Nat) (l : List Char), l.length ≤ m → stripTags o c l <+ l := by
  intro m
  induction m with
  | zero =>
    intro l hl
    rw [List.length_eq_zero.mp (Nat.le_zero.mp hl)]
    exact List.Sublist.refl _
  | succ m ih =>
    intro l hl
    match l with
    | [] => exact List.Sublist.refl _
    | x :: rest =>
      have hrest : rest.length ≤ m := by
        simp only [List.length_cons] at hl
        omega
      show stripAux o c (x :: rest) 0 <+ x :: rest
      simp only [stripAux]
      split_ifs with hx
      · cases hfc : findClose c rest with
        | some k =>
          show stripAux o c rest (k + 1) <+ x :: rest
          rw [stripAux_eq_drop]
          have h1 : stripTags o c (rest.drop (k + 1)) <+ rest.drop (k + 1) := by
            apply ih
            simp only [List.length_drop]
            omega
          exact h1.trans ((List.drop_sublist (k + 1) rest).trans
            (List.sublist_cons_self x rest))
        | none =>
          show x :: stripAux o c rest 0 <+ x :: rest
          exact List.Sublist.cons₂ x (ih rest hrest)
      · show x :: stripAux o c rest 0 <+ x :: rest
        exact List.Sublist.cons₂ x (ih rest hrest)

theorem stripTags_sub (o c : Char) (l : List Char) : stripTags o c l <+ l :=
  stripTags_sub_aux o c l.length l le_rfl

theorem stripTags_pairFree (o c : Char) :
    ∀ (m : Nat) (l : List Char), l.length ≤ m → ('\n' : Char) ∉ l →
    ¬ ([o, c] <+ stripTags o c l) := by
  intro m
  induction m with
  | zero =>
    intro l hl _
    rw [List.length_eq_zero.mp (Nat.le_zero.mp hl)]
    rw [show stripTags o c ([] : List Char) = [] from rfl]
    simp
  | succ m ih =>
    intro l hl hnl
    match l with
    | [] =>
      rw [show stripTags o c ([] : List Char) = [] from rfl]
      simp
    | x :: rest =>
      have hrest : rest.length ≤ m := by
        simp only [List.length_cons] at hl
        omega
      have hnlr : ('\n' : Char) ∉ rest := fun hm => hnl (List.mem_cons_of_mem x hm)
      show ¬ ([o, c] <+ stripAux o c (x :: rest) 0)
      simp only [stripAux]
      split_ifs with hx
      · cases hfc : findClose c rest with
        | some k =>
          show ¬ ([o, c] <+ stripAux o c rest (k + 1))
          rw [stripAux_eq_drop]
          apply ih
          · simp only [List.length_drop]
            omega
          · intro hm
            exact hnlr ((List.drop_sublist (k + 1) rest).subset hm)
        | none =>
          show ¬ ([o, c] <+ x :: stripAux o c rest 0)
          intro h
          rcases pair_cons h with ⟨_, hcmem⟩ | h2
          · have hcr : c ∈ rest := (stripTags_sub o c rest).subset hcmem
            exact findClose_none rest hnlr hfc hcr
          · exact ih rest hrest hnlr h2
      · show ¬ ([o, c] <+ x :: stripAux o c rest 0)
        intro h
        rcases pair_cons h with ⟨hxo, _⟩ | h2
        · exact hx hxo
        · exact ih rest hrest hnlr h2

theorem stripTags_id (o c : Char) :
    ∀ l : List Char, ¬ ([o, c] <+ l) → stripTags o c l = l := by
  intro l
  induction l with
  | nil => intro _; rfl
  | cons x rest ih =>
    intro hpf
    have hrest : ¬ ([o, c] <+ rest) := fun h => hpf (List.Sublist.cons x h)
    show stripAux o c (x :: rest) 0 = x :: rest
    simp only [stripAux]
    split_ifs with hx
    · cases hfc : findClose c rest with
      | some k =>
        exfalso
        apply hpf
        rw [hx]
        exact List.Sublist.cons₂ o (List.singleton_sublist.mpr (findClose_some_mem rest k hfc))
      | none =>
        show x :: stripAux o c rest 0 = x :: rest
        rw [show stripAux o c rest 0 = stripTags o c rest from rfl, ih hrest]
    · show x :: stripAux o c rest 0 = x :: rest
      rw [show stripAux o c rest 0 = stripTags o c rest from rfl, ih hrest]

theorem pair_flatMap {o c : Char}
    (ho : charRepl o = [o])
    (hob : o.toNat < 32 ∨ 37 < o.toNat ∧ o.toNat < 97 ∨ 122 < o.toNat)
    (hcb : c.toNat < 32 ∨ 37 < c.toNat ∧ c.toNat < 97 ∨ 122 < c.toNat) :
    ∀ l : List Char, [o, c] <+ l.flatMap charRepl → [o, c] <+ l := by
  intro l
  induction l with
  | nil => intro h; simpa using h
  | cons z rest ih =>
    intro h
    rw [List.flatMap_cons] at h
    rcases pair_append h with h1 | ⟨h1, h2⟩ | h1
    · exfalso
      have hoz : o ∈ charRepl z := h1.subset (by simp)
      have hzo : z = o := mem_charRepl_of_target hoz hob
      rw [hzo, ho] at h1
      simpa using h1.length_le
    · have hzo : z = o := mem_charRepl_of_target h1 hob
      have hcr : c ∈ rest := by
        rcases List.mem_flatMap.mp h2 with ⟨y, hy, hcy⟩
        exact (mem_charRepl_of_target hcy hcb) ▸ hy
      rw [hzo]
      exact List.Sublist.cons₂ o (List.singleton_sublist.mpr hcr)
    · exact List.Sublist.cons z (ih h1)

theorem pair_map_toLower {o c : Char}
    (hob : o.toNat < 97 ∨ 122 < o.toNat) (hcb : c.toNat < 97 ∨ 122 < c.toNat) :
    ∀ l : List Char, [o, c] <+ l.map Char.toLower → [o, c] <+ l := by
  intro l
  induction l with
  | nil => intro h; simpa using h
  | cons z rest ih =>
    intro h
    rw [List.map_cons] at h
    rcases pair_cons h with ⟨hz, hcm⟩ | h2
    · have hzo : z = o := toLower_fix hz hob
      have hcr : c ∈ rest := by
        rcases List.mem_map.mp hcm with ⟨y, hy, hyc⟩
        exact (toLower_fix hyc hcb) ▸ hy
      rw [hzo]
      exact List.Sublist.cons₂ o (List.singleton_sublist.mpr hcr)
    · exact List.Sublist.cons z (ih h2)

theorem mem_joinSep {x : Char} :
    ∀ ws : List (List Char), x ∈ joinSep ' ' ws → x = ' ' ∨ x ∈ ws.flatten := by
  intro ws
  induction ws with
  | nil => intro h; cases h
  | cons w t ih =>
    intro h
    cases t with
    | nil =>
      right
      simp only [List.flatten_cons, List.flatten_nil, List.append_nil]
      exact h
    | cons w2 t2 =>
      rw [show joinSep ' ' (w :: w2 :: t2) = w ++ ' ' :: joinSep ' ' (w2 :: t2)
        from rfl] at h
      rcases List.mem_append.mp h with h1 | h1
      · right
        simp only [List.flatten_cons]
        exact List.mem_append.mpr (Or.inl h1)
      · rcases List.mem_cons.mp h1 with rfl | h2
        · left; rfl
        · rcases ih h2 with h3 | h3
          · left; exact h3
          · right
            simp only [List.flatten_cons]
            exact List.mem_append.mpr (Or.inr h3)

theorem pair_joinSep {o c : Char} (ho : o ≠ ' ') (hc : c ≠ ' ') :
    ∀ ws : List (List Char), [o, c] <+ joinSep ' ' ws → [o, c] <+ ws.flatten := by
  intro ws
  induction ws with
  | nil =>
    intro h
    rw [show joinSep ' ' ([] : List (List Char)) = [] from rfl] at h
    simpa using h.length_le
  | cons w t ih =>
    intro h
    cases t with
    | nil =>
      simp only [List.flatten_cons, List.flatten_nil, List.append_nil]
      exact h
    | cons w2 t2 =>
      rw [show joinSep ' ' (w :: w2 :: t2) = w ++ ' ' :: joinSep ' ' (w2 :: t2)
        from rfl] at h
      simp only [List.flatten_cons]
      rcases pair_append h with h1 | ⟨h1, h2⟩ | h1
      · exact h1.trans (List.sublist_append_left w _)
      · rcases List.mem_cons.mp h2 with rfl | h3
        · exact absurd rfl hc
        · rcases mem_joinSep (w2 :: t2) h3 with rfl | h4
          · exact absurd rfl hc
          · exact pair_build h1 h4
      · rcases pair_cons h1 with ⟨hsp, _⟩ | h2
        · exact absurd hsp.symm ho
        · exact (ih h2).trans (List.sublist_append_right w _)

theorem flatten_sub_of_sub {ws1 ws2 : List (List Char)} (h : ws1 <+ ws2) :
    ws1.flatten <+ ws2.flatten := by
  induction h with
  | slnil => exact List.Sublist.refl _
  | cons w _ ih =>
    simp only [List.flatten_cons]
    exact ih.trans (List.sublist_append_right w _)
  | cons₂ w _ ih =>
    simp only [List.flatten_cons]
    exact List.Sublist.append (List.Sublist.refl w) ih

theorem splitWs_cons₂ {x d : Char} (rest2 : List Char)
    (hx : ¬ isWs x = true) (hd : ¬ isWs d = true) :
    splitWs (x :: d :: rest2) =
      match splitWs (d :: rest2) with
      | [] => [[x]]
      | w :: ws => (x :: w) :: ws := by
  rw [splitWs.eq_def]
  dsimp only
  rw [if_neg hx, if_neg hd]

theorem splitWs_cons₂_nil {x d : Char} {rest2 : List Char}
    (hx : ¬ isWs x = true) (hd : ¬ isWs d = true)
    (hsw : splitWs (d :: rest2) = []) :
    splitWs (x :: d :: rest2) = [[x]] := by
  rw [splitWs_cons₂ rest2 hx hd, hsw]

theorem splitWs_cons₂_cons {x d : Char} {rest2 w : List Char}
    {ws : List (List Char)}
    (hx : ¬ isWs x = true) (hd : ¬ isWs d = true)
    (hsw : splitWs (d :: rest2) = w :: ws) :
    splitWs (x :: d :: rest2) = (x :: w) :: ws := by
  rw [splitWs_cons₂ rest2 hx hd, hsw]

theorem splitWs_flatten_sub : ∀ l : List Char, (splitWs l).flatten <+ l := by
  intro l
  induction l with
  | nil => simp [splitWs]
  | cons x rest ih =>
    by_cases hx : isWs x
    · rw [show splitWs (x :: rest) = splitWs rest from by simp [splitWs, hx]]
      exact ih.trans (List.sublist_cons_self x rest)
    · cases rest with
      | nil => simp [splitWs, hx]
      | cons d rest2 =>
        by_cases hd : isWs d
        · rw [show splitWs (x :: d :: rest2) = [x] :: splitWs (d :: rest2)
            from by simp [splitWs, hx, hd]]
          simp only [List.flatten_cons, List.singleton_append]
          exact List.Sublist.cons₂ x ih
        · cases hsw : splitWs (d :: rest2) with
          | nil =>
            rw [splitWs_cons₂_nil hx hd hsw]
            simp
          | cons w ws =>
            rw [splitWs_cons₂_cons hx hd hsw]
            simp only [List.flatten_cons, List.cons_append]
            have h2 : w ++ ws.flatten <+ d :: rest2 := by
              have h3 := ih
              rw [hsw] at h3
              simpa using h3
            exact List.Sublist.cons₂ x h2

theorem splitWs_words : ∀ l : List Char, ∀ w ∈ splitWs l,
    w ≠ [] ∧ ∀ ch ∈ w, isWs ch = false := by
  intro l
  induction l with
  | nil => intro w hw; cases hw
  | cons x rest ih =>
    intro w hw
    by_cases hx : isWs x
    · rw [show splitWs (x :: rest) = splitWs rest from by simp [splitWs, hx]] at hw
      exact ih w hw
    · cases rest with
      | nil =>
        rw [show splitWs [x] = [[x]] from by simp [splitWs, hx]] at hw
        simp only [List.mem_singleton] at hw
        subst hw
        refine ⟨by simp, fun ch hch => ?_⟩
        simp only [List.mem_singleton] at hch
        subst hch
        simpa using hx
      | cons d rest2 =>
        by_cases hd : isWs d
        · rw [show splitWs (x :: d :: rest2) = [x] :: splitWs (d :: rest2)
            from by simp [splitWs, hx, hd]] at hw
          rcases List.mem_cons.mp hw with rfl | hw2
          · refine ⟨by simp, fun ch hch => ?_⟩
            simp only [List.mem_singleton] at hch
            subst hch
            simpa using hx
          · exact ih w hw2
        · cases hsw : splitWs (d :: rest2) with
          | nil =>
            rw [splitWs_cons₂_nil hx hd hsw] at hw
            simp only [List.mem_singleton] at hw
            subst hw
            refine ⟨by simp, fun ch hch => ?_⟩
            simp only [List.mem_singleton] at hch
            subst hch
            simpa using hx
          | cons w1 ws1 =>
            rw [splitWs_cons₂_cons hx hd hsw] at hw
            rcases List.mem_cons.mp hw with rfl | hw2
            · refine ⟨by simp, fun ch hch => ?_⟩
              rcases List.mem_cons.mp hch with rfl | hch2
              · simpa using hx
              · have hw1 : w1 ∈ splitWs (d :: rest2) := by rw [hsw]; simp
                exact (ih w1 hw1).2 ch hch2
            · have hw3 : w ∈ splitWs (d :: rest2) := by
                rw [hsw]
                exact List.mem_cons_of_mem w1 hw2
              exact ih w hw3

theorem splitWs_word : ∀ w : List Char, w ≠ [] → (∀ ch ∈ w, isWs ch = false) →
    splitWs w = [w] := by
  intro w
  induction w with
  | nil => intro h _; exact absurd rfl h
  | cons x t ih =>
    intro _ hnw
    have hx : ¬ isWs x = true := by simp [hnw x (List.mem_cons_self x t)]
    cases t with
    | nil =>
      rw [splitWs.eq_def]
      dsimp only
      rw [if_neg hx]
    | cons y t2 =>
      have hy : ¬ isWs y = true := by
        simp [hnw y (List.mem_cons_of_mem x (List.mem_cons_self y t2))]
      have ht : splitWs (y :: t2) = [y :: t2] :=
        ih (by simp) (fun ch hch => hnw ch (List.mem_cons_of_mem x hch))
      rw [splitWs_cons₂_cons hx hy ht]

theorem splitWs_append_word : ∀ w : List Char, w ≠ [] →
    (∀ ch ∈ w, isWs ch = false) →
    ∀ t, splitWs (w ++ ' ' :: t) = w :: splitWs t := by
  intro w
  induction w with
  | nil => intro h; exact absurd rfl h
  | cons x w' ih =>
    intro _ hnw t
    have hx : ¬ isWs x = true := by simp [hnw x (List.mem_cons_self x w')]
    cases w' with
    | nil =>
      show splitWs (x :: ' ' :: t) = [x] :: splitWs t
      have hsp : isWs ' ' = true := rfl
      have h1 : splitWs (' ' :: t) = splitWs t := by
        rw [splitWs.eq_def]
        dsimp only
        rw [if_pos hsp]
      rw [splitWs.eq_def]
      dsimp only
      rw [if_neg hx, if_pos hsp, h1]
    | cons y w'' =>
      have hy : ¬ isWs y = true := by
        simp [hnw y (List.mem_cons_of_mem x (List.mem_cons_self y w''))]
      have hih : splitWs ((y :: w'') ++ ' ' :: t) = (y :: w'') :: splitWs t :=
        ih (by simp) (fun ch hch => hnw ch (List.mem_cons_of_mem x hch)) t
      show splitWs (x :: ((y :: w'') ++ ' ' :: t)) = (x :: y :: w'') :: splitWs t
      rw [List.cons_append] at hih ⊢
      rw [splitWs_cons₂_cons hx hy hih]

theorem splitWs_joinSep : ∀ ws : List (List Char),
    (∀ w ∈ ws, w ≠ [] ∧ ∀ ch ∈ w, isWs ch = false) →
    splitWs (joinSep ' ' ws) = ws := by
  intro ws
  induction ws with
  | nil => intro _; rfl
  | cons w t ih =>
    intro hws
    obtain ⟨hne, hnw⟩ := hws w (List.mem_cons_self w t)
    cases t with
    | nil =>
      show splitWs w = [w]
      exact splitWs_word w hne hnw
    | cons w2 t2 =>
      rw [show joinSep ' ' (w :: w2 :: t2) = w ++ ' ' :: joinSep ' ' (w2 :: t2)
          from rfl,
        splitWs_append_word w hne hnw,
        ih (fun u hu => hws u (List.mem_cons_of_mem w hu))]

theorem pyStrip_sub (l : List Char) : pyStrip l <+ l := by
  unfold pyStrip
  have h1 : l.dropWhile isWs <+ l := List.dropWhile_sublist isWs
  have h2 : (l.dropWhile isWs).reverse.dropWhile isWs <+ (l.dropWhile isWs).reverse :=
    List.dropWhile_sublist isWs
  have h3 := h2.reverse
  rw [List.reverse_reverse] at h3
  exact h3.trans h1

theorem pyStrip_eq_self (l : List Char)
    (hh : ∀ ch, l.head? = some ch → isWs ch = false)
    (hl : ∀ ch, l.getLast? = some ch → isWs ch = false) : pyStrip l = l := by
  have hd : ∀ m : List Char, (∀ ch, m.head? = some ch → isWs ch = false) →
      m.dropWhile isWs = m := by
    intro m hm
    cases m with
    | nil => rfl
    | cons x t =>
      have hx : ¬ isWs x = true := by simp [hm x rfl]
      exact List.dropWhile_cons_of_neg hx
  unfold pyStrip
  rw [hd l hh,
    hd l.reverse (by
      intro ch hch
      rw [List.head?_reverse] at hch
      exact hl ch hch),
    List.reverse_reverse]

theorem joinSep_ne_nil (w : List Char) (t : List (List Char)) (hw : w ≠ []) :
    joinSep ' ' (w :: t) ≠ [] := by
  cases t with
  | nil => exact hw
  | cons w2 t2 =>
    show w ++ ' ' :: joinSep ' ' (w2 :: t2) ≠ []
    simp

theorem joinSep_head_nonws {ws : List (List Char)}
    (hws : ∀ w ∈ ws, w ≠ [] ∧ ∀ ch ∈ w, isWs ch = false) :
    ∀ ch, (joinSep ' ' ws).head? = some ch → isWs ch = false := by
  cases ws with
  | nil => intro ch h; cases h
  | cons w t =>
    obtain ⟨hne, hnw⟩ := hws w (List.mem_cons_self w t)
    intro ch h
    have hh : (joinSep ' ' (w :: t)).head? = w.head? := by
      cases t with
      | nil => rfl
      | cons w2 t2 =>
        show (w ++ ' ' :: joinSep ' ' (w2 :: t2)).head? = w.head?
        cases w with
        | nil => exact absurd rfl hne
        | cons a w' => rfl
    rw [hh] at h
    cases w with
    | nil => cases h
    | cons a w' =>
      rw [List.head?_cons] at h
      injection h with h
      rw [← h]
      exact hnw a (List.mem_cons_self a w')

theorem joinSep_getLast_nonws : ∀ ws : List (List Char),
    (∀ w ∈ ws, w ≠ [] ∧ ∀ ch ∈ w, isWs ch = false) →
    ∀ ch, (joinSep ' ' ws).getLast? = some ch → isWs ch = false := by
  intro ws
  induction ws with
  | nil => intro _ ch h; cases h
  | cons w t ih =>
    intro hws ch h
    cases t with
    | nil =>
      obtain ⟨hne, hnw⟩ := hws w (List.mem_cons_self w [])
      exact hnw ch (List.mem_of_getLast?_eq_some h)
    | cons w2 t2 =>
      obtain ⟨hne2, _⟩ := hws w2 (List.mem_cons_of_mem w (List.mem_cons_self w2 t2))
      have hJne : joinSep ' ' (w2 :: t2) ≠ [] := joinSep_ne_nil w2 t2 hne2
      have h1 : (joinSep ' ' (w :: w2 :: t2)).getLast? =
          (joinSep ' ' (w2 :: t2)).getLast? := by
        show (w ++ ' ' :: joinSep ' ' (w2 :: t2)).getLast? = _
        rw [List.getLast?_append_of_ne_nil w (by simp),
          show (' ' :: joinSep ' ' (w2 :: t2)) = [' '] ++ joinSep ' ' (w2 :: t2)
            from rfl,
          List.getLast?_append_of_ne_nil [' '] hJne]
      rw [h1] at h
      exact ih (fun u hu => hws u (List.mem_cons_of_mem w hu)) ch h

theorem flatMap_id : ∀ l : List Char, (∀ ch ∈ l, charRepl ch = [ch]) →
    l.flatMap charRepl = l := by
  intro l
  induction l with
  | nil => intro _; rfl
  | cons x t ih =>
    intro h
    rw [List.flatMap_cons, h x (List.mem_cons_self x t),
      ih (fun ch hch => h ch (List.mem_cons_of_mem x hch))]
    rfl

theorem map_toLower_id : ∀ l : List Char, (∀ ch ∈ l, Char.toLower ch = ch) →
    l.map Char.toLower = l := by
  intro l
  induction l with
  | nil => intro _; rfl
  | cons x t ih =>
    intro h
    rw [List.map_cons, h x (List.mem_cons_self x t),
      ih (fun ch hch => h ch (List.mem_cons_of_mem x hch))]

theorem normChars_eq_join (l : List Char) :
    normChars l = pyStrip (joinSep ' ' (normStage l)) := by
  simp only [normChars, normStage]

theorem normChars_fix (ws2 : List (List Char))
    (hW : ∀ w ∈ ws2, w ≠ [] ∧ ∀ ch ∈ w, isWs ch = false)
    (hsafe : ∀ ch ∈ joinSep ' ' ws2, charRepl ch = [ch] ∧ Char.toLower ch = ch)
    (hpf1 : ¬ ([ '[', ']' ] <+ joinSep ' ' ws2))
    (hpf2 : ¬ ([ '(', ')' ] <+ joinSep ' ' ws2))
    (hpf3 : ¬ ([ '\x7b', '\x7d' ] <+ joinSep ' ' ws2))
    (hfilt : ws2.filter (fun w => !decide (w ∈ stopWords)) = ws2) :
    normChars (joinSep ' ' ws2) = joinSep ' ' ws2 := by
  simp only [normChars]
  rw [stripTags_id '[' ']' _ hpf1, stripTags_id '(' ')' _ hpf2,
    stripTags_id '\x7b' '\x7d' _ hpf3,
    flatMap_id _ (fun ch hch => (hsafe ch hch).1),
    map_toLower_id _ (fun ch hch => (hsafe ch hch).2),
    splitWs_joinSep ws2 hW, hfilt]
  exact pyStrip_eq_self _ (joinSep_head_nonws hW) (joinSep_getLast_nonws ws2 hW)

theorem norm_idem : ∀ l : List Char, ('\n' : Char) ∉ l →
    normChars (normChars l) = normChars l := by
  intro l hnl
  have hnl1 : ('\n' : Char) ∉ stripTags '[' ']' l :=
    fun hm => hnl ((stripTags_sub '[' ']' l).subset hm)
  have hnl2 : ('\n' : Char) ∉ stripTags '(' ')' (stripTags '[' ']' l) :=
    fun hm => hnl1 ((stripTags_sub '(' ')' _).subset hm)
  have hW : ∀ w ∈ normStage l, w ≠ [] ∧ ∀ ch ∈ w, isWs ch = false := by
    intro w hw
    simp only [normStage] at hw
    exact splitWs_words _ w (List.mem_of_mem_filter hw)
  have hJout : normChars l = joinSep ' ' (normStage l) := by
    rw [normChars_eq_join]
    exact pyStrip_eq_self _ (joinSep_head_nonws hW) (joinSep_getLast_nonws _ hW)
  have hchain : ∀ o c : Char, o ≠ ' ' → c ≠ ' ' →
      charRepl o = [o] →
      (o.toNat < 32 ∨ 37 < o.toNat ∧ o.toNat < 97 ∨ 122 < o.toNat) →
      (c.toNat < 32 ∨ 37 < c.toNat ∧ c.toNat < 97 ∨ 122 < c.toNat) →
      [o, c] <+ joinSep ' ' (normStage l) →
      [o, c] <+ stripTags '\x7b' '\x7d' (stripTags '(' ')'
        (stripTags '[' ']' l)) := by
    intro o c ho hc hrep hob hcb h
    have h1 : [o, c] <+ (normStage l).flatten := pair_joinSep ho hc _ h
    have h2 : [o, c] <+ (((stripTags '\x7b' '\x7d' (stripTags '(' ')'
        (stripTags '[' ']' l))).flatMap charRepl).map Char.toLower) := by
      simp only [normStage] at h1
      exact (h1.trans (flatten_sub_of_sub (List.filter_sublist _))).trans
        (splitWs_flatten_sub _)
    have h3 := pair_map_toLower (by omega) (by omega) _ h2
    exact pair_flatMap hrep hob hcb _ h3
  have hpf1 : ¬ ([ '[', ']' ] <+ joinSep ' ' (normStage l)) := by
    intro h
    have h3 := hchain '[' ']' (by decide) (by decide) (by decide) (by decide)
      (by decide) h
    have h2 := h3.trans (stripTags_sub '\x7b' '\x7d' _)
    have h1 := h2.trans (stripTags_sub '(' ')' _)
    exact stripTags_pairFree '[' ']' l.length l (Nat.le_refl _) hnl h1
  have hpf2 : ¬ ([ '(', ')' ] <+ joinSep ' ' (normStage l)) := by
    intro h
    have h3 := hchain '(' ')' (by decide) (by decide) (by decide) (by decide)
      (by decide) h
    have h2 := h3.trans (stripTags_sub '\x7b' '\x7d' _)
    exact stripTags_pairFree '(' ')' (stripTags '[' ']' l).length _
      (Nat.le_refl _) hnl1 h2
  have hpf3 : ¬ ([ '\x7b', '\x7d' ] <+ joinSep ' ' (normStage l)) := by
    intro h
    exact stripTags_pairFree '\x7b' '\x7d'
      (stripTags '(' ')' (stripTags '[' ']' l)).length _ (Nat.le_refl _) hnl2
      (hchain '\x7b' '\x7d' (by decide) (by decide) (by decide) (by decide)
        (by decide) h)
  have hsafe : ∀ ch ∈ joinSep ' ' (normStage l),
      charRepl ch = [ch] ∧ Char.toLower ch = ch := by
    intro ch hch
    rcases mem_joinSep _ hch with rfl | hfl
    · exact ⟨by decide, by decide⟩
    · simp only [normStage] at hfl
      have h1 : ch ∈ (((stripTags '\x7b' '\x7d' (stripTags '(' ')'
          (stripTags '[' ']' l))).flatMap charRepl).map Char.toLower) :=
        (splitWs_flatten_sub _).subset
          ((flatten_sub_of_sub (List.filter_sublist _)).subset hfl)
      rcases List.mem_map.mp h1 with ⟨y, hy, hych⟩
      rcases List.mem_flatMap.mp hy with ⟨z, _, hyz⟩
      exact ⟨hych ▸ charRepl_toLower (charRepl_of_mem hyz),
        hych ▸ toLower_idem y⟩
  have hfilt : (normStage l).filter (fun w => !decide (w ∈ stopWords)) =
      normStage l := by
    apply List.filter_eq_self.mpr
    intro w hw
    simp only [normStage] at hw
    exact (List.mem_filter.mp hw).2
  calc normChars (normChars l)
      = normChars (joinSep ' ' (normStage l)) := by rw [hJout]
    _ = joinSep ' ' (normStage l) :=
        normChars_fix (normStage l) hW hsafe hpf1 hpf2 hpf3 hfilt
    _ = normChars l := hJout.symm

/-- C4 counterexample: `normalize_name` is not idempotent.  For the input
`"[\n]"` the non-greedy bracket pattern cannot match across the newline, so
the first pass keeps both brackets and `split`/`join` turns the newline into a
space, producing `"[ ]"`; the second pass then strips the now-matching bracket
group, producing `""`. -/
theorem claim4_ce :
    normalizeName (normalizeName "[\n]") ≠ normalizeName "[\n]" ∧
      normalizeName "[\n]" = "[ ]" ∧
      normalizeName (normalizeName "[\n]") = "" := by
  refine ⟨?_, rfl, rfl⟩
  decide

/-- C4 (amended): `normalize_name` is idempotent on every newline-free string:
for all `s` with no `'\n'` character, `normalize_name (normalize_name s) =
normalize_name s`. -/
theorem claim4_idempotent_no_newline (s : String)
    (h : ('\n' : Char) ∉ s.data) :
    normalizeName (normalizeName s) = normalizeName s :=
  congrArg String.mk (norm_idem s.data h)

theorem claim4_witness :
    (('\n' : Char) ∉ "The Legend of Zelda [USA] (Rev 1)".data) ∧
      normalizeName (normalizeName "The Legend of Zelda [USA] (Rev 1)") =
        normalizeName "The Legend of Zelda [USA] (Rev 1)" :=
  ⟨by decide, claim4_idempotent_no_newline "The Legend of Zelda [USA] (Rev 1)"
    (by decide)⟩
